import Mathlib

/-!
# Verification of the theme-hybrid-workflow engine

A shallow embedding, in Lean 4, of the pure core of the
`theme-hybrid-workflow` TypeScript repository, together with theorems
settling the specification claims about it.

Embedding conventions:

* JavaScript numbers are IEEE-754 binary64 values.  Every number that
  appears in the embedded code is an exactly representable rational, and
  each arithmetic operation (`+`, `-`, `*`, `/`) is modelled as the exact
  rational operation followed by `roundDbl`, rounding to 53 significant
  bits with ties to even — exactly the IEEE-754 round-to-nearest rule in
  the normal range (all quantities in this development are far away from
  overflow and underflow).  `Math.floor` is `Int.floor`, exact on doubles.
* JavaScript strings are Lean `String`s; regular-expression matching is
  modelled by explicit scanning functions over `List Char`.
* `JSON`/network/file-system effects are out of scope; the external
  per-chunk extractor is abstracted as a function returning
  `Except ExtractError (List ThemeEntry)`, where `ExtractError.forceSplit`
  is the distinguished `FORCE_SPLIT` capacity-exceeded signal thrown by
  `extractThemesWithAI` and `ExtractError.otherErr` covers every other
  thrown error.
* JavaScript `Array.prototype.sort` with a numeric comparator is (per the
  ECMAScript spec) a stable sort ordered by the comparator; it is modelled
  by `List.insertionSort`, which is stable in the same sense.
-/

/-! ## IEEE-754 binary64 model -/

/-- Powers of two over ℚ by structural recursion (kernel-reducible). -/
def pow2 : ℕ → ℚ
  | 0 => 1
  | n + 1 => 2 * pow2 n

/-- Floor of `log₂ a` for `1 ≤ a`, by fuelled halving. -/
def floorLog2Up (fuel : ℕ) (a : ℚ) : ℤ :=
  if fuel = 0 then 0
  else if a < 2 then 0 else 1 + floorLog2Up (fuel - 1) (a / 2)
termination_by fuel
decreasing_by omega

/-- Floor of `log₂ a` for `0 < a < 1`, by fuelled doubling. -/
def floorLog2Down (fuel : ℕ) (a : ℚ) : ℤ :=
  if fuel = 0 then 0
  else if 1 ≤ a then 0 else floorLog2Down (fuel - 1) (a * 2) - 1
termination_by fuel
decreasing_by omega

/-- Floor of `log₂ a` for a positive rational in the IEEE-754 binary64 range
(fuel 1100 covers every finite double). -/
def floorLog2 (a : ℚ) : ℤ :=
  if 1 ≤ a then floorLog2Up 1100 a else floorLog2Down 1100 a

/-- Powers of two over ℚ for an integer exponent. -/
def qscale (e : ℤ) : ℚ :=
  if 0 ≤ e then pow2 e.toNat else (pow2 (-e).toNat)⁻¹

/-- Round a rational to the nearest IEEE-754 binary64 value
(53 significant bits, ties to even), in the normal range.
This models every JavaScript arithmetic result exactly for the magnitudes
occurring in this development. -/
def roundDbl (q : ℚ) : ℚ :=
  if q = 0 then 0
  else
    let s : ℚ := if q < 0 then -1 else 1
    let a : ℚ := if q < 0 then -q else q
    let e : ℤ := floorLog2 a
    let scale : ℚ := qscale (52 - e)
    let n : ℚ := a * scale
    let f : ℤ := ⌊n⌋
    let r : ℚ := n - (f : ℚ)
    let m : ℤ :=
      if r < 1/2 then f
      else if 1/2 < r then f + 1
      else if f % 2 = 0 then f else f + 1
    s * (m : ℚ) / scale

/-- JavaScript `+` on numbers. -/
def dblAdd (a b : ℚ) : ℚ := roundDbl (a + b)

/-- JavaScript `-` on numbers. -/
def dblSub (a b : ℚ) : ℚ := roundDbl (a - b)

/-- JavaScript `*` on numbers. -/
def dblMul (a b : ℚ) : ℚ := roundDbl (a * b)

/-- JavaScript `/` on numbers. -/
def dblDiv (a b : ℚ) : ℚ := roundDbl (a / b)

/-- JavaScript `%` (fmod) on numbers, for a finite dividend and positive
divisor: `a - b * truncate (a / b)`, computed exactly (the IEEE remainder
operation is exact). -/
def dblMod (a b : ℚ) : ℚ := a - b * (⌊a / b⌋ : ℚ)

/-! ## Character and string utilities (regex building blocks) -/

/-- The regex class `\d`: code points 0x30–0x39. -/
def isDig (c : Char) : Bool := 48 ≤ c.toNat && c.toNat ≤ 57

/-- Numeric value of a digit character. -/
def digVal (c : Char) : ℕ := c.toNat - 48

/-- Whitespace as matched by the regex class `\s` and by
`String.prototype.trim` (on the characters occurring in this code base:
space, tab, CR, LF, form feed, vertical tab). -/
def isWS (c : Char) : Bool :=
  c = ' ' || c = '\t' || c = '\r' || c = '\n' || c = '\x0b' || c = '\x0c'

/-- Model of `String.prototype.trim`. -/
def trimChars (cs : List Char) : List Char :=
  ((cs.dropWhile isWS).reverse.dropWhile isWS).reverse

/-- Model of `string.split('\n')`, on the character list. -/
def splitNl : List Char → List (List Char)
  | [] => [[]]
  | c :: cs =>
    if c = '\n' then [] :: splitNl cs
    else
      match splitNl cs with
      | [] => [[c]]
      | t :: ts => (c :: t) :: ts

/-- JavaScript `parseInt(line)` in base 10: skip leading whitespace, an
optional sign, then a maximal run of digits; `none` models `NaN`.
(The automatic hex-prefix detection of `parseInt` is irrelevant for the
claims and not modelled.) -/
def jsParseInt (cs : List Char) : Option ℤ :=
  let cs1 := cs.dropWhile isWS
  match cs1 with
  | '-' :: rest =>
    let ds := rest.takeWhile isDig
    if ds = [] then none
    else some (-(ds.foldl (fun acc c => 10 * acc + digVal c) 0 : ℕ))
  | '+' :: rest =>
    let ds := rest.takeWhile isDig
    if ds = [] then none
    else some ((ds.foldl (fun acc c => 10 * acc + digVal c) 0 : ℕ))
  | _ =>
    let ds := cs1.takeWhile isDig
    if ds = [] then none
    else some ((ds.foldl (fun acc c => 10 * acc + digVal c) 0 : ℕ))

/-- The trimmed line is nonempty and consists of digits only
(the regex test `/^\d+$/.test(line.trim())`). -/
def isAllDigits (cs : List Char) : Bool := !cs.isEmpty && cs.all isDig

/-! ## Timestamp pattern matching

The SRT sources use two patterns:
`(\d{2}:\d{2}:\d{2}),\d{3} --> (\d{2}:\d{2}:\d{2}),\d{3}` in `parseSrt`
(capturing only the `HH:MM:SS` parts) and
`(\d{2}):(\d{2}):(\d{2}),(\d{3}) --> …` in `adjustSrtTimestamps` and
`timeToSeconds`.  Both recognize the same 29-character text; a `Stamp`
records all twelve matched characters of one timestamp. -/

/-- The characters of one matched `HH:MM:SS,mmm` timestamp. -/
structure Stamp where
  h1 : Char
  h2 : Char
  m1 : Char
  m2 : Char
  s1 : Char
  s2 : Char
  f1 : Char
  f2 : Char
  f3 : Char
deriving DecidableEq, Repr

/-- The 12 characters a `Stamp` was matched from. -/
def stampChars (t : Stamp) : List Char :=
  [t.h1, t.h2, ':', t.m1, t.m2, ':', t.s1, t.s2, ',', t.f1, t.f2, t.f3]

/-- The first 8 characters (the `HH:MM:SS` part, capture group of
`parseSrt`'s pattern). -/
def stampHMS (t : Stamp) : List Char :=
  [t.h1, t.h2, ':', t.m1, t.m2, ':', t.s1, t.s2]

/-- All twelve matched characters are digits in their digit positions. -/
def stampShape (t : Stamp) : Prop :=
  isDig t.h1 ∧ isDig t.h2 ∧ isDig t.m1 ∧ isDig t.m2 ∧ isDig t.s1 ∧
    isDig t.s2 ∧ isDig t.f1 ∧ isDig t.f2 ∧ isDig t.f3

/-- Match `\d{2}:\d{2}:\d{2},\d{3}` at the head of the input; on success
return the stamp and the remaining input. -/
def matchStamp : List Char → Option (Stamp × List Char)
  | a :: b :: c :: d :: e :: f :: g :: h :: i :: j :: k :: l :: rest =>
    if isDig a && isDig b && c = ':' && isDig d && isDig e && f = ':' &&
        isDig g && isDig h && i = ',' && isDig j && isDig k && isDig l then
      some (⟨a, b, d, e, g, h, j, k, l⟩, rest)
    else none
  | _ => none

/-- Match the literal `" --> "` at the head of the input. -/
def matchArrow : List Char → Option (List Char)
  | ' ' :: '-' :: '-' :: '>' :: ' ' :: rest => some rest
  | _ => none

/-- Match the full timestamp-pair pattern at the head of the input. -/
def matchStampPair (cs : List Char) : Option (Stamp × Stamp × List Char) :=
  match matchStamp cs with
  | none => none
  | some (t1, r1) =>
    match matchArrow r1 with
    | none => none
    | some r2 =>
      match matchStamp r2 with
      | none => none
      | some (t2, r3) => some (t1, t2, r3)

/-- Unanchored regex search for the timestamp-pair pattern: leftmost
match, returning the two captured stamps (models
`line.match(/(\d{2}:\d{2}:\d{2}),\d{3} --> (\d{2}:\d{2}:\d{2}),\d{3}/)`,
whose groups are the `HH:MM:SS` parts). -/
def searchStampPair : List Char → Option (Stamp × Stamp)
  | [] => none
  | c :: cs =>
    match matchStampPair (c :: cs) with
    | some (t1, t2, _) => some (t1, t2)
    | none => searchStampPair cs

/-- Unanchored regex search for a single `\d{2}:\d{2}:\d{2},\d{3}`
timestamp (the pattern of `timeToSeconds`). -/
def searchStamp : List Char → Option Stamp
  | [] => none
  | c :: cs =>
    match matchStamp (c :: cs) with
    | some (t, _) => some t
    | none => searchStamp cs

/-- Hours value of a stamp. -/
def stampH (t : Stamp) : ℕ := 10 * digVal t.h1 + digVal t.h2

/-- Minutes value of a stamp. -/
def stampM (t : Stamp) : ℕ := 10 * digVal t.m1 + digVal t.m2

/-- Seconds value of a stamp. -/
def stampS (t : Stamp) : ℕ := 10 * digVal t.s1 + digVal t.s2

/-- Milliseconds value of a stamp. -/
def stampMs (t : Stamp) : ℕ :=
  100 * digVal t.f1 + 10 * digVal t.f2 + digVal t.f3

/-- The seconds value of a matched timestamp, computed the way the source
does (`hours * 3600 + minutes * 60 + seconds + milliseconds / 1000` in
double arithmetic). -/
def stampSeconds (t : Stamp) : ℚ :=
  dblAdd
    (dblAdd (dblAdd (dblMul (stampH t) 3600) (dblMul (stampM t) 60)) (stampS t))
    (dblDiv (stampMs t) 1000)

/-! ## `src/utils/srt.ts` -/

/-- One parsed subtitle entry, `{id, start, end, text}`.  `id` is an
arbitrary-precision integer here; `parseInt` produces a double in
JavaScript, which agrees on every id of realistic size. -/
structure Subtitle where
  id : ℤ
  start : String
  stop : String
  text : String
deriving DecidableEq, Repr

/-- Parser state for the `parseSrt` loop.

`parseSrt` walks the line array with an index `i`.  Reformulated one line
at a time: in `scan` it is at the top of the outer `while`, looking for an
id line (skipping blank and non-numeric lines); `afterId id` means an id
was just consumed and the current line is tested against the timestamp
pattern (no match ⇒ back to `scan` on the next line); `inText id t1 t2 acc`
means a timestamp line matched and text lines are being accumulated
(`text += line + '\n'`).  A line that ends the text block is *not*
consumed by the inner `while`; the outer loop re-examines it, which the
step function mirrors by re-dispatching that line in `scan` mode after
pushing the finished record. -/
inductive ParseState where
  | scan : ParseState
  | afterId : ℤ → ParseState
  | inText : ℤ → Stamp → Stamp → List Char → ParseState

/-- Build the record pushed by `parseSrt` (`text.trim()` at push time). -/
def mkSubtitle (id : ℤ) (t1 t2 : Stamp) (acc : List Char) : Subtitle :=
  { id := id
    start := ⟨stampHMS t1⟩
    stop := ⟨stampHMS t2⟩
    text := ⟨trimChars acc⟩ }

/-- Dispatch one line in `scan` mode. -/
def scanStep (l : List Char) : ParseState :=
  if trimChars l = [] then ParseState.scan
  else
    match jsParseInt l with
    | none => ParseState.scan
    | some id => ParseState.afterId id

/-- The `parseSrt` loop over the remaining lines. -/
def parseLoop : ParseState → List (List Char) → List Subtitle
  | ParseState.inText id t1 t2 acc, [] =>
    -- the inner text `while` exits at end of input and the record is
    -- pushed unconditionally
    [mkSubtitle id t1 t2 acc]
  | _, [] =>
    -- end of input: a dangling id (`afterId`) is dropped by the
    -- `if (i >= lines.length) break;`
    []
  | ParseState.scan, l :: ls => parseLoop (scanStep l) ls
  | ParseState.afterId id, l :: ls =>
    match searchStampPair l with
    | none => parseLoop ParseState.scan ls
    | some (t1, t2) => parseLoop (ParseState.inText id t1 t2 []) ls
  | ParseState.inText id t1 t2 acc, l :: ls =>
    if trimChars l ≠ [] ∧ ¬ isAllDigits (trimChars l) then
      parseLoop (ParseState.inText id t1 t2 (acc ++ l ++ ['\n'])) ls
    else
      mkSubtitle id t1 t2 acc :: parseLoop (scanStep l) ls

/-- The characters of the literal `" --> "`. -/
def arrowChars : List Char := [' ', '-', '-', '>', ' ']

theorem matchStamp_eq {cs : List Char} {t : Stamp} {rest : List Char}
    (h : matchStamp cs = some (t, rest)) :
    cs = stampChars t ++ rest ∧ stampShape t := by
  unfold matchStamp at h
  split at h
  · rename_i a b c d e f g h' i j k l rest'
    split at h
    · rename_i hguard
      simp only [Option.some.injEq, Prod.mk.injEq] at h
      obtain ⟨ht, hrest⟩ := h
      subst ht hrest
      simp only [Bool.and_eq_true, decide_eq_true_eq] at hguard
      obtain ⟨⟨⟨⟨⟨⟨⟨⟨⟨⟨⟨h1, h2⟩, hc⟩, h3⟩, h4⟩, hc2⟩, h5⟩, h6⟩, hcm⟩, h7⟩, h8⟩, h9⟩ := hguard
      subst hc hc2 hcm
      exact ⟨rfl, h1, h2, h3, h4, h5, h6, h7, h8, h9⟩
    · exact absurd h (by simp)
  · exact absurd h (by simp)

theorem matchArrow_eq {cs rest : List Char} (h : matchArrow cs = some rest) :
    cs = arrowChars ++ rest := by
  unfold matchArrow at h
  split at h
  · simp only [Option.some.injEq] at h
    subst h
    rfl
  · exact absurd h (by simp)

theorem matchStampPair_eq {cs : List Char} {t1 t2 : Stamp} {rest : List Char}
    (h : matchStampPair cs = some (t1, t2, rest)) :
    cs = stampChars t1 ++ arrowChars ++ stampChars t2 ++ rest ∧
      stampShape t1 ∧ stampShape t2 := by
  unfold matchStampPair at h
  split at h
  · exact absurd h (by simp)
  · rename_i u1 r1 h1
    split at h
    · exact absurd h (by simp)
    · rename_i r2 h2
      split at h
      · exact absurd h (by simp)
      · rename_i u2 r3 h3
        simp only [Option.some.injEq, Prod.mk.injEq] at h
        obtain ⟨e1, e2, e3⟩ := h
        subst e1 e2 e3
        obtain ⟨hc1, hs1⟩ := matchStamp_eq h1
        obtain ⟨hc3, hs3⟩ := matchStamp_eq h3
        have hc2 := matchArrow_eq h2
        subst hc3
        subst hc2
        subst hc1
        exact ⟨by simp, hs1, hs3⟩

theorem matchStampPair_length {cs : List Char} {t1 t2 : Stamp}
    {rest : List Char} (h : matchStampPair cs = some (t1, t2, rest)) :
    cs.length = 29 + rest.length := by
  obtain ⟨hc, -, -⟩ := matchStampPair_eq h
  subst hc
  simp [stampChars, arrowChars]
  omega

theorem matchStampPair_comma {cs : List Char} {t1 t2 : Stamp}
    {rest : List Char} (h : matchStampPair cs = some (t1, t2, rest)) :
    ',' ∈ cs := by
  obtain ⟨hc, -, -⟩ := matchStampPair_eq h
  subst hc
  simp [stampChars, arrowChars]

/-- If a line contains no comma it cannot contain a timestamp-pair match. -/
theorem searchStampPair_comma :
    ∀ {cs : List Char}, (searchStampPair cs).isSome → ',' ∈ cs := by
  intro cs
  induction cs with
  | nil => intro h; simp [searchStampPair] at h
  | cons c cs ih =>
    intro h
    unfold searchStampPair at h
    cases hm : matchStampPair (c :: cs) with
    | some p =>
      obtain ⟨t1, t2, rest⟩ := p
      exact matchStampPair_comma hm
    | none =>
      rw [hm] at h
      exact List.mem_cons_of_mem c (ih h)

/-- Model of `parseSrt`: split the content on `'\n'` and run the line loop. -/
def parseSrt (srtContent : String) : List Subtitle :=
  parseLoop ParseState.scan (splitNl srtContent.data)

/-- The block `formatSubtitlesToSrt` builds for one record:
`id + '\n' + start + ' --> ' + end + '\n' + text + '\n'`. -/
def cueBlock (s : Subtitle) : List Char :=
  (Int.repr s.id).data ++ '\n' ::
    (s.start.data ++ arrowChars ++ s.stop.data) ++ '\n' ::
      s.text.data ++ ['\n']

/-- Model of `array.join('\n')`. -/
def joinNl : List (List Char) → List Char
  | [] => []
  | [b] => b
  | b :: bs => b ++ '\n' :: joinNl bs

/-- Model of `formatSubtitlesToSrt`: map each record to its block and join the
blocks with `'\n'`.  Note that it emits each record's own `id` field as
the cue index, and the `start`/`end` strings verbatim. -/
def formatSubtitlesToSrt (subtitles : List Subtitle) : String :=
  ⟨joinNl (subtitles.map cueBlock)⟩

/-! ## `src/utils/format.ts` -/

/-- Model of `timeToSeconds`: match the four-group timestamp pattern anywhere in
the string; on failure return `0`, otherwise
`hours * 3600 + minutes * 60 + seconds + milliseconds / 1000`
in double arithmetic. -/
def timeToSeconds (timeStr : String) : ℚ :=
  match searchStamp timeStr.data with
  | none => 0
  | some t => stampSeconds t

/-- Model of `padStart(n, '0')`. -/
def padZeros (n : ℕ) (cs : List Char) : List Char :=
  List.replicate (n - cs.length) '0' ++ cs

/-- The inner `formatTimestamp` of `adjustSrtTimestamps`: re-encode a
double time value as `HH:MM:SS,mmm` using `Math.floor` on double
arithmetic and zero padding. -/
def formatTimestampChars (time : ℚ) : List Char :=
  let hours : ℤ := ⌊dblDiv time 3600⌋
  let minutes : ℤ := ⌊dblDiv (dblMod time 3600) 60⌋
  let seconds : ℤ := ⌊dblMod time 60⌋
  let milliseconds : ℤ := ⌊dblMul (dblMod time 1) 1000⌋
  padZeros 2 (Int.repr hours).data ++ ':' ::
    padZeros 2 (Int.repr minutes).data ++ ':' ::
      padZeros 2 (Int.repr seconds).data ++ ',' ::
        padZeros 3 (Int.repr milliseconds).data

/-- The replacement text `adjustSrtTimestamps` produces for one matched
timestamp pair at offset `offsetSeconds`. -/
def adjustPair (offsetSeconds : ℚ) (t1 t2 : Stamp) : List Char :=
  formatTimestampChars (dblAdd (stampSeconds t1) offsetSeconds) ++
    arrowChars ++
      formatTimestampChars (dblAdd (stampSeconds t2) offsetSeconds)

/-- Model of `string.replace` with a global regex: scan left to right; at a match,
emit the replacement and resume after the matched text, otherwise copy
one character and continue. -/
def replaceTs (f : Stamp → Stamp → List Char) : List Char → List Char
  | [] => []
  | c :: cs =>
    match h : matchStampPair (c :: cs) with
    | some (t1, t2, rest) => f t1 t2 ++ replaceTs f rest
    | none => c :: replaceTs f cs
termination_by cs => cs.length
decreasing_by
  · have := matchStampPair_length h
    simp at this ⊢
    omega
  · simp

/-- All (non-overlapping, left-to-right) timestamp-pair matches in a
text, in order: the matches `adjustSrtTimestamps`'s global replace
visits. -/
def allStampPairs : List Char → List (Stamp × Stamp)
  | [] => []
  | c :: cs =>
    match h : matchStampPair (c :: cs) with
    | some (t1, t2, rest) => (t1, t2) :: allStampPairs rest
    | none => allStampPairs cs
termination_by cs => cs.length
decreasing_by
  · have := matchStampPair_length h
    simp at this ⊢
    omega
  · simp

/-- Model of `adjustSrtTimestamps`. -/
def adjustSrtTimestamps (srtContent : String) (offsetSeconds : ℚ) : String :=
  ⟨replaceTs (adjustPair offsetSeconds) srtContent.data⟩

/-! ## `src/utils/themes.ts` (theme utilities) -/

/-- A theme span `{start, end, theme}`. -/
structure ThemeEntry where
  start : String
  stop : String
  theme : String
deriving DecidableEq, Repr

/-- Remove the filler expressions, the global regex replace
`.replace(/について|に関して|とは|の方法/g, '')`: at each position the
alternatives are tried in pattern order; on a match the matched text is
dropped and scanning resumes after it. -/
def removeFillers : List Char → List Char
  | 'に' :: 'つ' :: 'い' :: 'て' :: rest => removeFillers rest
  | 'に' :: '関' :: 'し' :: 'て' :: rest => removeFillers rest
  | 'と' :: 'は' :: rest => removeFillers rest
  | 'の' :: '方' :: '法' :: rest => removeFillers rest
  | c :: cs => c :: removeFillers cs
  | [] => []

/-- The punctuation class `[.,;:!?'"()]`. -/
def isPunct (c : Char) : Bool :=
  c = '.' || c = ',' || c = ';' || c = ':' || c = '!' || c = '?' ||
    c = '\x27' || c = '\x22' || c = '(' || c = ')'

/-- The `normalizeTheme` closure of `areSimilarThemes`: lower-case,
strip filler phrases, strip punctuation, trim.  (`Char.toLower` models
`toLowerCase` on the ASCII letters; no other cased characters occur in
theme labels here.) -/
def normalizeTheme (theme : String) : String :=
  ⟨trimChars ((removeFillers (theme.data.map Char.toLower)).filter
    (fun c => !isPunct c))⟩

/-- The split on whitespace runs viewed as a left-to-right scanner: `acc` is the
(reversed) run of non-whitespace characters currently being read. -/
def wsSplitGo (acc : List Char) : List Char → List (List Char)
  | [] => if acc = [] then [] else [acc.reverse]
  | c :: cs =>
    if isWS c then
      if acc = [] then wsSplitGo [] cs
      else acc.reverse :: wsSplitGo [] cs
    else wsSplitGo (c :: acc) cs

/-- JavaScript `s.split(/\s+/)` for a trimmed string `s`: the empty
string yields `[""]` (no separator is found, so the whole string is
returned), otherwise the maximal non-whitespace runs. -/
def jsSplitWs (s : String) : List String :=
  if s.data = [] then [""] else (wsSplitGo [] s.data).map fun cs => ⟨cs⟩

/-- Model of `areSimilarThemes`.  The length arithmetic is exact in doubles; the
ratio is one double division; the comparison with the `0.7` / `0.5`
literals (the nearest doubles to those decimals) is exact. -/
def areSimilarThemes (theme1 theme2 : String) : Bool :=
  let words1 := jsSplitWs (normalizeTheme theme1)
  let words2 := jsSplitWs (normalizeTheme theme2)
  if words1.length = 0 || words2.length = 0 then false
  else
    let commonWords := words1.filter fun word => words2.contains word
    let similarityRatio : ℚ :=
      dblDiv (2 * commonWords.length) (words1.length + words2.length)
    let minWordCount := min words1.length words2.length
    let similarityThreshold : ℚ :=
      if minWordCount ≤ 3 then roundDbl (7/10) else roundDbl (1/2)
    decide (similarityThreshold ≤ similarityRatio)

/-- The sort key of `mergeOverlappingThemes`'s comparator
`timeToSeconds(a.start) - timeToSeconds(b.start)`. -/
def themeKey (t : ThemeEntry) : ℚ := timeToSeconds t.start

/-- The ordering the comparator induces. -/
def themeLE (a b : ThemeEntry) : Prop := themeKey a ≤ themeKey b

instance : DecidableRel themeLE := fun a b =>
  inferInstanceAs (Decidable (themeKey a ≤ themeKey b))

instance : IsTotal ThemeEntry themeLE := ⟨fun a b => le_total _ _⟩

instance : IsTrans ThemeEntry themeLE := ⟨fun _ _ _ => le_trans⟩

/-- Model of the sort call with the start-time comparator:
a stable sort ordered by the comparator (ECMAScript 2019 semantics). -/
def sortThemes (themes : List ThemeEntry) : List ThemeEntry :=
  themes.insertionSort themeLE

/-- The merge condition of `mergeOverlappingThemes`:
`(nextStart - currentEnd < 10 || nextStart <= currentEnd) &&
 areSimilarThemes(current.theme, next.theme)`. -/
def shouldMerge (current next : ThemeEntry) : Bool :=
  (decide (dblSub (timeToSeconds next.start) (timeToSeconds current.stop) < 10) ||
    decide (timeToSeconds next.start ≤ timeToSeconds current.stop)) &&
      areSimilarThemes current.theme next.theme

/-- On merge the end time is extended to the later of the two
(`current.end = theme.end` only when strictly later); `start` and
`theme` are never updated. -/
def extendTheme (current next : ThemeEntry) : ThemeEntry :=
  if timeToSeconds current.stop < timeToSeconds next.stop then
    { current with stop := next.stop }
  else current

/-- The scan of `mergeOverlappingThemes` over the sorted list, carrying
the running `currentTheme` (`none` initially). -/
def mergeScan : Option ThemeEntry → List ThemeEntry → List ThemeEntry
  | none, [] => []
  | some current, [] => [current]
  | none, t :: ts => mergeScan (some t) ts
  | some current, t :: ts =>
    if shouldMerge current t then mergeScan (some (extendTheme current t)) ts
    else current :: mergeScan (some t) ts

/-- Model of `mergeOverlappingThemes`, as a state transformer: the source sorts
the argument array *in place* and then scans it, pushing freshly copied
spans.  The first component is the final contents of the caller's
argument array (mutated by `sort`), the second is the returned merged
list. -/
def mergeOverlappingThemesRun (themes : List ThemeEntry) :
    List ThemeEntry × List ThemeEntry :=
  (sortThemes themes, mergeScan none (sortThemes themes))

/-- The return value of `mergeOverlappingThemes`. -/
def mergeOverlappingThemes (themes : List ThemeEntry) : List ThemeEntry :=
  (mergeOverlappingThemesRun themes).2

/-- Model of `getModelMaxTokens`. -/
def getModelMaxTokens (model provider : String) : ℕ :=
  if provider = "google" then
    if model = "gemini-pro" then 32768
    else if model = "gemini-1.5-flash" then 1048576
    else if model = "gemini-1.5-pro" then 1048576
    else 32768
  else
    if model = "gpt-3.5-turbo" then 16385
    else if model = "gpt-3.5-turbo-16k" then 16385
    else if model = "gpt-4" then 8192
    else if model = "gpt-4-32k" then 32768
    else if model = "gpt-4-turbo" then 128000
    else 16385

/-! ## `src/commands/…` (theme extraction driver) -/

/-- The error classes an extractor call can surface: the distinguished
`FORCE_SPLIT` capacity-exceeded signal, or any other error message. -/
inductive ExtractError where
  | forceSplit : ExtractError
  | otherErr : String → ExtractError
deriving DecidableEq, Repr

/-- The chunk size `processLargeSrt` computes:
`Math.floor(maxContentTokens / averageSubtitleTokens / 4)` where
`maxContentTokens = getModelMaxTokens(model, provider) - 500`,
`averageSubtitleTokens = (srtContent.length / subtitles.length) / 4`.
There is no lower floor of 1 in the source. -/
def subtitlesPerChunk (model provider : String)
    (srtLength subtitleCount : ℕ) : ℤ :=
  let maxTokens := getModelMaxTokens model provider
  let maxContentTokens : ℚ := (maxTokens : ℚ) - 500
  let averageSubtitleLength : ℚ := dblDiv srtLength subtitleCount
  let averageSubtitleTokens : ℚ := dblDiv averageSubtitleLength 4
  ⌊dblDiv (dblDiv maxContentTokens averageSubtitleTokens) 4⌋

/-- The sub-chunk size of `splitAndProcessChunk`:
`Math.max(5, Math.ceil(subtitles.length / 4))`. -/
def subChunkSize (subtitleCount : ℕ) : ℕ :=
  max 5 ((subtitleCount + 3) / 4)

/-- The slicing loop `for (i = 0; i < n; i += size) slice(i, i + size)`,
for a positive `size` (both call sites guarantee this; with `size = 0`
the source loop would not advance at all — see the C3 analysis). -/
def chunksOf (size : ℕ) : List α → List (List α)
  | [] => []
  | a :: rest => (a :: rest.take (size - 1)) :: chunksOf size (rest.drop (size - 1))
termination_by l => l.length
decreasing_by
  simp
  have := List.length_drop (size - 1) rest
  omega

/-- The sub-chunks `splitAndProcessChunk` builds from its chunk text:
re-parse, slice into runs of `subChunkSize`, re-format each run. -/
def buildSubChunks (chunk : String) : List String :=
  let subtitles := parseSrt chunk
  (chunksOf (subChunkSize subtitles.length) subtitles).map formatSubtitlesToSrt

/-- The per-sub-chunk loop of `splitAndProcessChunk`: call the extractor,
append its results on success, skip the sub-chunk (with a warning) on
`FORCE_SPLIT`, re-throw any other error. -/
def processSubChunks (f : String → Except ExtractError (List ThemeEntry)) :
    List String → Except ExtractError (List ThemeEntry)
  | [] => Except.ok []
  | c :: cs =>
    match f c with
    | Except.ok themes =>
      match processSubChunks f cs with
      | Except.ok rest => Except.ok (themes ++ rest)
      | Except.error e => Except.error e
    | Except.error ExtractError.forceSplit => processSubChunks f cs
    | Except.error (ExtractError.otherErr m) =>
      Except.error (ExtractError.otherErr m)

/-- Model of `splitAndProcessChunk`, with the network extractor
(`extractThemesWithAI srtChunk apiKey model provider`) abstracted as
`f`. -/
def splitAndProcessChunk (f : String → Except ExtractError (List ThemeEntry))
    (chunk : String) : Except ExtractError (List ThemeEntry) :=
  processSubChunks f (buildSubChunks chunk)

/-! ## `src/services/video.ts` (`cutSilentParts`) -/

/-- A detected silence interval. -/
structure Silence where
  start : ℚ
  stop : ℚ
  duration : ℚ
deriving DecidableEq, Repr

/-- The keep-segment loop of `cutSilentParts`: for each silence, pad it
outwards (clamped to the video), emit `[lastEnd, silenceStart]` when it
is at least `minSegmentDuration` long, and advance `lastEnd`; after the
loop, emit the final `[lastEnd, videoDuration]` segment under the same
rule. -/
def segmentsLoop (videoDuration padding minSegmentDuration : ℚ) :
    ℚ → List Silence → List (ℚ × ℚ)
  | lastEnd, [] =>
    if minSegmentDuration ≤ dblSub videoDuration lastEnd then
      [(lastEnd, videoDuration)]
    else []
  | lastEnd, silence :: rest =>
    let silenceStart := max 0 (dblSub silence.start padding)
    let silenceEnd := min videoDuration (dblAdd silence.stop padding)
    (if minSegmentDuration ≤ dblSub silenceStart lastEnd then
      [(lastEnd, silenceStart)]
    else []) ++ segmentsLoop videoDuration padding minSegmentDuration silenceEnd rest

/-- The list of keep segments `cutSilentParts` builds (the part of the
function preceding the ffmpeg filter construction). -/
def cutSilentPartsSegments (silences : List Silence)
    (videoDuration padding minSegmentDuration : ℚ) : List (ℚ × ℚ) :=
  segmentsLoop videoDuration padding minSegmentDuration 0 silences

/-! ## Correctness of the binary64 rounding model -/

theorem pow2_eq (n : ℕ) : pow2 n = (2 : ℚ) ^ n := by
  induction n with
  | zero => rfl
  | succ n ih => rw [pow2, ih, pow_succ]; ring

theorem pow2_pos (n : ℕ) : 0 < pow2 n := by
  rw [pow2_eq]; positivity

theorem qscale_eq (e : ℤ) : qscale e = (2 : ℚ) ^ e := by
  unfold qscale
  split
  · rename_i h
    rw [pow2_eq, ← zpow_natCast, Int.toNat_of_nonneg h]
  · rename_i h
    rw [pow2_eq, ← zpow_natCast, Int.toNat_of_nonneg (by omega), ← zpow_neg,
      neg_neg]

theorem floorLog2Up_spec :
    ∀ (fuel : ℕ) (a : ℚ), 1 ≤ a → a < pow2 fuel →
      0 ≤ floorLog2Up fuel a ∧ (2 : ℚ) ^ floorLog2Up fuel a ≤ a ∧
        a < 2 ^ (floorLog2Up fuel a + 1) := by
  intro fuel
  induction fuel with
  | zero =>
    intro a h1 h2
    rw [pow2_eq, pow_zero] at h2
    linarith
  | succ f ih =>
    intro a h1 h2
    rw [floorLog2Up]
    simp only [Nat.succ_ne_zero, if_false, Nat.add_sub_cancel]
    split
    · rename_i hlt
      refine ⟨le_refl 0, ?_, ?_⟩
      · simpa using h1
      · simpa using hlt
    · rename_i hge
      push_neg at hge
      have hhalf : (1 : ℚ) ≤ a / 2 := by linarith
      have hhalf2 : a / 2 < pow2 f := by
        rw [pow2, pow2_eq] at h2
        rw [pow2_eq]
        linarith
      obtain ⟨hr0, hrl, hrh⟩ := ih (a / 2) hhalf hhalf2
      refine ⟨by omega, ?_, ?_⟩
      · rw [add_comm 1 _, zpow_add_one₀ (by norm_num)]
        linarith
      · have : a / 2 < 2 ^ (floorLog2Up f (a / 2) + 1) := hrh
        rw [add_comm 1 _, add_right_comm, zpow_add_one₀ (by norm_num)]
        linarith

theorem floorLog2Down_spec :
    ∀ (fuel : ℕ) (a : ℚ), 0 < a → a < 1 → 1 ≤ a * pow2 fuel →
      floorLog2Down fuel a < 0 ∧ (2 : ℚ) ^ floorLog2Down fuel a ≤ a ∧
        a < 2 ^ (floorLog2Down fuel a + 1) := by
  intro fuel
  induction fuel with
  | zero =>
    intro a h0 h1 h2
    rw [pow2_eq, pow_zero, mul_one] at h2
    linarith
  | succ f ih =>
    intro a h0 h1 h2
    rw [floorLog2Down]
    simp only [Nat.succ_ne_zero, if_false, Nat.add_sub_cancel,
      not_le.mpr h1, if_neg (not_le.mpr h1)]
    by_cases hd : (1 : ℚ) ≤ a * 2
    · have hinner : floorLog2Down f (a * 2) = 0 := by
        rw [floorLog2Down]
        by_cases hf : f = 0
        · simp [hf]
        · simp [hf, hd]
      rw [hinner]
      refine ⟨by norm_num, ?_, ?_⟩
      · rw [show (0 : ℤ) - 1 = -1 by ring, zpow_neg, zpow_one]
        rw [show (2 : ℚ)⁻¹ = 1 / 2 by norm_num]
        linarith
      · simpa using h1
    · push_neg at hd
      have h2' : 1 ≤ a * 2 * pow2 f := by
        rw [pow2] at h2
        calc (1 : ℚ) ≤ a * (2 * pow2 f) := h2
        _ = a * 2 * pow2 f := by ring
      obtain ⟨hr0, hrl, hrh⟩ := ih (a * 2) (by linarith) hd h2'
      refine ⟨by omega, ?_, ?_⟩
      · rw [zpow_sub_one₀ (by norm_num : (2:ℚ) ≠ 0)]
        linarith
      · rw [sub_add_cancel]
        rw [zpow_add_one₀ (by norm_num : (2:ℚ) ≠ 0)] at hrh
        linarith

theorem zpow_1100_eq : (2 : ℚ) ^ (1100 : ℤ) = pow2 1100 := by
  rw [pow2_eq, ← zpow_natCast (2 : ℚ) 1100]
  congr 1

theorem neg1100_cancel : (2 : ℚ) ^ (-1100 : ℤ) * pow2 1100 = 1 := by
  rw [← zpow_1100_eq, ← zpow_add₀ (by norm_num : (2:ℚ) ≠ 0)]
  norm_num

theorem floorLog2_spec (a : ℚ) (hlo : (2 : ℚ) ^ (-1100 : ℤ) ≤ a)
    (hhi : a < (2 : ℚ) ^ (1100 : ℤ)) :
    (2 : ℚ) ^ floorLog2 a ≤ a ∧ a < 2 ^ (floorLog2 a + 1) := by
  have h0 : 0 < a := lt_of_lt_of_le (by positivity) hlo
  unfold floorLog2
  split
  · rename_i h1
    have h2 : a < pow2 1100 := by rw [← zpow_1100_eq]; exact hhi
    exact (floorLog2Up_spec 1100 a h1 h2).2
  · rename_i h1
    push_neg at h1
    have h2 : 1 ≤ a * pow2 1100 := by
      have hp : (0 : ℚ) < pow2 1100 := pow2_pos 1100
      calc (1 : ℚ) = (2 : ℚ) ^ (-1100 : ℤ) * pow2 1100 := neg1100_cancel.symm
      _ ≤ a * pow2 1100 := mul_le_mul_of_nonneg_right hlo (le_of_lt hp)
    exact (floorLog2Down_spec 1100 a h0 h1 h2).2

/-- A bracketing `2^e ≤ a < 2^(e+1)` determines `e` uniquely. -/
theorem floorLog2_bracket (a : ℚ) (e : ℤ) (hlo : (2 : ℚ) ^ e ≤ a)
    (hhi : a < 2 ^ (e + 1)) (he : e.natAbs ≤ 1099) : floorLog2 a = e := by
  have hb : (2 : ℚ) ^ floorLog2 a ≤ a ∧ a < 2 ^ (floorLog2 a + 1) := by
    apply floorLog2_spec
    · calc (2 : ℚ) ^ (-1100 : ℤ) ≤ 2 ^ e :=
        zpow_le_zpow_right₀ (by norm_num) (by omega)
      _ ≤ a := hlo
    · calc a < 2 ^ (e + 1) := hhi
      _ ≤ (2 : ℚ) ^ (1100 : ℤ) := zpow_le_zpow_right₀ (by norm_num) (by omega)
  by_contra hne
  rcases lt_or_gt_of_ne hne with hlt | hgt
  · have : (2 : ℚ) ^ (floorLog2 a + 1) ≤ 2 ^ e :=
      zpow_le_zpow_right₀ (by norm_num) (by omega)
    linarith [hb.2]
  · have : (2 : ℚ) ^ (e + 1) ≤ 2 ^ floorLog2 a :=
      zpow_le_zpow_right₀ (by norm_num) (by omega)
    linarith [hb.1]

/-- The body of `roundDbl` once the exponent is known: round `q` to the
grid of spacing `2 ^ (e - 52)`. -/
def roundAt (q : ℚ) (e : ℤ) : ℚ :=
  let scale : ℚ := 2 ^ (52 - e)
  let n : ℚ := q * scale
  let f : ℤ := ⌊n⌋
  let r : ℚ := n - (f : ℚ)
  let m : ℤ :=
    if r < 1/2 then f
    else if 1/2 < r then f + 1
    else if f % 2 = 0 then f else f + 1
  (m : ℚ) / scale

/-- Evaluation rule for `roundDbl` on a positive rational with a known
binade: supply `e` with `2^e ≤ q < 2^(e+1)`. -/
theorem roundDbl_eval (q : ℚ) (e : ℤ) (hlo : (2 : ℚ) ^ e ≤ q)
    (hhi : q < 2 ^ (e + 1)) (he : e.natAbs ≤ 1099) :
    roundDbl q = roundAt q e := by
  have h0 : 0 < q := lt_of_lt_of_le (by positivity) hlo
  have hfl : floorLog2 q = e := floorLog2_bracket q e hlo hhi he
  simp only [roundDbl, roundAt, if_neg (show ¬ q = 0 by linarith),
    if_neg (show ¬ q < 0 by linarith), hfl, qscale_eq, one_mul]

theorem roundDbl_zero : roundDbl 0 = 0 := by simp [roundDbl]

/-- The rounding `roundDbl` fixes every nonnegative value that is exactly
representable: `q * 2^k` an integer of at most `2^53`. -/
theorem roundDbl_fix (q : ℚ) (z : ℤ) (k : ℕ) (h0 : 0 ≤ q)
    (hq : q * 2 ^ k = (z : ℚ)) (hz : z ≤ 2 ^ 53) (hk : k ≤ 1046) :
    roundDbl q = q := by
  have hpowk : (0 : ℚ) < 2 ^ k := by positivity
  rcases eq_or_lt_of_le h0 with h0' | h0'
  · rw [← h0', roundDbl_zero]
  · have hzpos : 0 < z := by
      have : (0 : ℚ) < z := by rw [← hq]; positivity
      exact_mod_cast this
    have hz1 : (1 : ℚ) ≤ (z : ℚ) := by exact_mod_cast hzpos
    have hqz : q = (z : ℚ) / 2 ^ k := by
      rw [eq_div_iff (ne_of_gt hpowk)]
      exact hq
    -- lower bound 2^(-k) ≤ q and upper bound q ≤ 2^53
    have hql : (2 : ℚ) ^ (-(k : ℤ)) ≤ q := by
      rw [hqz, zpow_neg, zpow_natCast, inv_eq_one_div]
      gcongr
    have hqu : q ≤ (2 : ℚ) ^ (53 : ℕ) := by
      rw [hqz]
      have h2 : (z : ℚ) ≤ 2 ^ (53 : ℕ) := by exact_mod_cast hz
      have h1le : (1 : ℚ) ≤ 2 ^ k := one_le_pow₀ (by norm_num)
      calc (z : ℚ) / 2 ^ k ≤ (z : ℚ) / 1 := by gcongr
      _ = (z : ℚ) := by norm_num
      _ ≤ 2 ^ (53 : ℕ) := h2
    set e : ℤ := floorLog2 q with hedef
    have hbr : (2 : ℚ) ^ e ≤ q ∧ q < 2 ^ (e + 1) := by
      apply floorLog2_spec
      · calc (2 : ℚ) ^ (-1100 : ℤ) ≤ 2 ^ (-(k : ℤ)) :=
          zpow_le_zpow_right₀ (by norm_num) (by omega)
        _ ≤ q := hql
      · calc q ≤ (2 : ℚ) ^ (53 : ℕ) := hqu
        _ = (2 : ℚ) ^ ((53 : ℕ) : ℤ) := (zpow_natCast 2 53).symm
        _ < (2 : ℚ) ^ (1100 : ℤ) := by
          apply zpow_lt_zpow_right₀ (by norm_num)
          simp
    -- e is in the admissible range
    have hele : e ≤ 53 := by
      by_contra hbig
      push_neg at hbig
      have h1 : (2 : ℚ) ^ ((53 : ℕ) : ℤ) < 2 ^ e := by
        apply zpow_lt_zpow_right₀ (by norm_num)
        simp
        omega
      rw [zpow_natCast] at h1
      linarith [hbr.1, hqu]
    have hege : -(k : ℤ) ≤ e := by
      by_contra hsmol
      push_neg at hsmol
      have h1 : (2 : ℚ) ^ (e + 1) ≤ 2 ^ (-(k : ℤ)) :=
        zpow_le_zpow_right₀ (by norm_num) (by omega)
      linarith [hbr.2, hql]
    rw [roundDbl_eval q e hbr.1 hbr.2 (by omega)]
    unfold roundAt
    -- the scaled value `q * 2^(52 - e)` is an integer
    have hint : ∃ w : ℤ, q * 2 ^ ((52 : ℤ) - e) = (w : ℚ) := by
      by_cases hc : 0 ≤ (52 : ℤ) - e - (k : ℤ)
      · refine ⟨z * 2 ^ ((52 : ℤ) - e - k).toNat, ?_⟩
        push_cast
        rw [← hq, ← zpow_natCast (2:ℚ) (((52 : ℤ) - e - k).toNat),
          Int.toNat_of_nonneg hc, ← zpow_natCast (2:ℚ) k,
          show (52 : ℤ) - e = ((52 : ℤ) - e - k) + k by ring,
          zpow_add₀ (by norm_num : (2:ℚ) ≠ 0)]
        ring_nf
      · -- then e + k ≥ 53, forcing z = 2^53, q = 2^(53-k), scaled value 2^52
        push_neg at hc
        have hek : (53 : ℤ) ≤ e + k := by omega
        have hzlo : (2 : ℚ) ^ (e + (k : ℤ)) ≤ (z : ℚ) := by
          rw [← hq, zpow_add₀ (by norm_num : (2:ℚ) ≠ 0), zpow_natCast]
          exact mul_le_mul_of_nonneg_right hbr.1 (le_of_lt hpowk)
        have hz53 : (2 : ℚ) ^ (53 : ℤ) ≤ (z : ℚ) := by
          calc (2 : ℚ) ^ (53 : ℤ) ≤ 2 ^ (e + (k : ℤ)) :=
            zpow_le_zpow_right₀ (by norm_num) hek
          _ ≤ (z : ℚ) := hzlo
        have hzeq : (z : ℚ) = 2 ^ (53 : ℤ) := by
          have h2 : (z : ℚ) ≤ 2 ^ (53 : ℕ) := by exact_mod_cast hz
          rw [← zpow_natCast (2:ℚ) 53] at h2
          have h53 : ((53 : ℕ) : ℤ) = (53 : ℤ) := by simp
          rw [h53] at h2
          linarith
        have hek53 : e + (k : ℤ) = 53 := by
          by_contra hne
          have h54 : (54 : ℤ) ≤ e + k := by omega
          have h1 : (2 : ℚ) ^ (54 : ℤ) ≤ 2 ^ (e + (k : ℤ)) :=
            zpow_le_zpow_right₀ (by norm_num) h54
          have h2 : (2 : ℚ) ^ (53 : ℤ) < 2 ^ (54 : ℤ) :=
            zpow_lt_zpow_right₀ (by norm_num) (by norm_num)
          linarith [hzlo, hzeq ▸ (le_refl (z : ℚ))]
        refine ⟨2 ^ (52 : ℕ), ?_⟩
        have hqeq : q = 2 ^ ((53 : ℤ) - k) := by
          have : q * 2 ^ k = 2 ^ ((53 : ℤ) - k) * 2 ^ k := by
            rw [hq, hzeq, ← zpow_natCast (2:ℚ) k,
              ← zpow_add₀ (by norm_num : (2:ℚ) ≠ 0)]
            norm_num
          exact mul_right_cancel₀ (ne_of_gt hpowk) this
        rw [hqeq, ← zpow_add₀ (by norm_num : (2:ℚ) ≠ 0)]
        push_cast
        rw [show (53 : ℤ) - k + (52 - e) = 52 + (53 - (e + k)) by ring, hek53]
        norm_num
    obtain ⟨w, hw⟩ := hint
    simp only
    rw [hw, Int.floor_intCast, sub_self,
      if_pos (show (0 : ℚ) < 1/2 by norm_num), ← hw]
    field_simp

/-- Convenience form of `roundDbl_fix` for integer-valued doubles. -/
theorem roundDbl_intval (q : ℚ) (z : ℤ) (hq : q = (z : ℚ)) (h0 : 0 ≤ z)
    (hz : z ≤ 2 ^ 53) : roundDbl q = q := by
  apply roundDbl_fix q z 0
  · rw [hq]
    exact_mod_cast h0
  · rw [hq]
    norm_num
  · exact hz
  · norm_num

/-! ## Claim C8: the silent-cut example -/

/-- C8.  For silences `[{10,12},{40,42}]`, total duration 50, padding 1
and minimum segment duration 0.3 (the double nearest 0.3, as produced by
`parseFloat("0.3")`), `cutSilentParts` computes exactly the keep
segments `[0,9]`, `[13,39]`, `[43,50]`, in that order. -/
theorem c8_silent_cut_example :
    cutSilentPartsSegments [⟨10, 12, 2⟩, ⟨40, 42, 2⟩] 50 1 (roundDbl (3/10)) =
      [(0, 9), (13, 39), (43, 50)] := by
  have hm : roundDbl (3/10 : ℚ) = 5404319552844595/18014398509481984 := by
    rw [roundDbl_eval (3/10) (-2) (by norm_num) (by norm_num) (by norm_num)]
    norm_num [roundAt]
  have s1 : dblSub (10 : ℚ) 1 = 9 := by
    rw [dblSub, show (10 : ℚ) - 1 = 9 by norm_num]
    exact roundDbl_intval _ 9 (by norm_num) (by norm_num) (by norm_num)
  have s2 : dblAdd (12 : ℚ) 1 = 13 := by
    rw [dblAdd, show (12 : ℚ) + 1 = 13 by norm_num]
    exact roundDbl_intval _ 13 (by norm_num) (by norm_num) (by norm_num)
  have s3 : dblSub (9 : ℚ) 0 = 9 := by
    rw [dblSub, show (9 : ℚ) - 0 = 9 by norm_num]
    exact roundDbl_intval _ 9 (by norm_num) (by norm_num) (by norm_num)
  have s4 : dblSub (40 : ℚ) 1 = 39 := by
    rw [dblSub, show (40 : ℚ) - 1 = 39 by norm_num]
    exact roundDbl_intval _ 39 (by norm_num) (by norm_num) (by norm_num)
  have s5 : dblAdd (42 : ℚ) 1 = 43 := by
    rw [dblAdd, show (42 : ℚ) + 1 = 43 by norm_num]
    exact roundDbl_intval _ 43 (by norm_num) (by norm_num) (by norm_num)
  have s6 : dblSub (39 : ℚ) 13 = 26 := by
    rw [dblSub, show (39 : ℚ) - 13 = 26 by norm_num]
    exact roundDbl_intval _ 26 (by norm_num) (by norm_num) (by norm_num)
  have s7 : dblSub (50 : ℚ) 43 = 7 := by
    rw [dblSub, show (50 : ℚ) - 43 = 7 by norm_num]
    exact roundDbl_intval _ 7 (by norm_num) (by norm_num) (by norm_num)
  simp only [cutSilentPartsSegments, segmentsLoop, s1, s2, s3, s4, s5, s6, s7,
    hm]
  norm_num [s3, s6, s7]

/-! ## Claim C3: the chunk planner can produce a zero chunk size -/

/-- C3 (code bug).  With model `gpt-4` (8192-token limit), a 10000
character SRT containing a single subtitle, `processLargeSrt` computes
`subtitlesPerChunk = Math.floor((8192-500) / ((10000/1)/4) / 4) = 0`:
there is no floor at 1, contradicting the claimed invariant, and the
slicing loop `for (i = 0; i < n; i += 0)` then never advances. -/
theorem c3_zero_chunk_size : subtitlesPerChunk "gpt-4" "openai" 10000 1 = 0 := by
  have hmodel : getModelMaxTokens "gpt-4" "openai" = 8192 := by
    simp [getModelMaxTokens]
  have h1 : dblDiv (10000 : ℚ) 1 = 10000 := by
    rw [dblDiv, show (10000 : ℚ)/1 = 10000 by norm_num]
    exact roundDbl_intval _ 10000 (by norm_num) (by norm_num) (by norm_num)
  have h2 : dblDiv (10000 : ℚ) 4 = 2500 := by
    rw [dblDiv, show (10000 : ℚ)/4 = 2500 by norm_num]
    exact roundDbl_intval _ 2500 (by norm_num) (by norm_num) (by norm_num)
  have h3 : dblDiv (7692 : ℚ) 2500 = 6928337666746771/2251799813685248 := by
    rw [dblDiv, show (7692 : ℚ)/2500 = 1923/625 by norm_num,
      roundDbl_eval (1923/625) 1 (by norm_num) (by norm_num) (by norm_num)]
    norm_num [roundAt]
  have h4 : dblDiv (6928337666746771/2251799813685248 : ℚ) 4 =
      6928337666746771/9007199254740992 := by
    rw [dblDiv, show (6928337666746771/2251799813685248 : ℚ)/4 =
      6928337666746771/9007199254740992 by norm_num]
    exact roundDbl_fix _ 6928337666746771 53 (by norm_num) (by norm_num)
      (by norm_num) (by norm_num)
  simp only [subtitlesPerChunk, hmodel]
  norm_num [h1, h2, h3, h4]

/-! ## Claim C5: similarity of empty-normalizing labels -/

theorem roundDbl_seven_tenths :
    roundDbl (7/10 : ℚ) = 3152519739159347/4503599627370496 := by
  rw [roundDbl_eval (7/10) (-1) (by norm_num) (by norm_num) (by norm_num)]
  norm_num [roundAt]

theorem roundDbl_half : roundDbl (1/2 : ℚ) = 1/2 :=
  roundDbl_fix (1/2) 1 1 (by norm_num) (by norm_num) (by norm_num) (by norm_num)

/-- Every token produced by the whitespace splitter is nonempty. -/
theorem wsSplitGo_ne_nil :
    ∀ (l acc : List Char), ∀ t ∈ wsSplitGo acc l, t ≠ [] := by
  intro l
  induction l with
  | nil =>
    intro acc t ht
    unfold wsSplitGo at ht
    split at ht
    · simp at ht
    · rename_i hacc
      simp at ht
      subst ht
      simpa using hacc
  | cons c cs ih =>
    intro acc t ht
    unfold wsSplitGo at ht
    split at ht
    · split at ht
      · exact ih [] t ht
      · rename_i hacc
        rcases List.mem_cons.mp ht with h | h
        · subst h
          simpa using hacc
        · exact ih [] t h
    · exact ih (c :: acc) t ht

/-- C5 (counterexample).  Two labels that both normalize to the empty
string *are* judged similar: `areSimilarThemes("", "")` is `true`,
because `"".split(/\s+/)` is `[""]`, not `[]`, so the empty guard never
fires and the Dice ratio is `2·1/(1+1) = 1 ≥ 0.7`. -/
theorem c5_similar_counterexample : areSimilarThemes "" "" = true := by
  have h2 : dblDiv (2 : ℚ) 2 = 1 := by
    rw [dblDiv, show (2 : ℚ)/2 = 1 by norm_num]
    exact roundDbl_intval _ 1 (by norm_num) (by norm_num) (by norm_num)
  simp only [areSimilarThemes, show normalizeTheme "" = "" from rfl,
    show jsSplitWs "" = [""] by simp [jsSplitWs]]
  norm_num [h2, roundDbl_seven_tenths]

/-- C5 (amended).  The dead guard and the actual behaviour on
empty-normalizing labels: if both labels normalize to the empty token
`""`, `areSimilarThemes` returns `true` (the split of the empty string is
`[""]`, a one-element list, so the `length === 0` guard cannot fire and
the ratio is 1); if exactly one side normalizes to empty, it returns
`false` (the empty token is never a common word, so the ratio is 0,
below both thresholds). -/
theorem c5_empty_label_similarity (t1 t2 : String) :
    (normalizeTheme t1 = "" → normalizeTheme t2 = "" →
      areSimilarThemes t1 t2 = true) ∧
    (normalizeTheme t1 = "" → normalizeTheme t2 ≠ "" →
      areSimilarThemes t1 t2 = false) ∧
    (normalizeTheme t1 ≠ "" → normalizeTheme t2 = "" →
      areSimilarThemes t1 t2 = false) := by
  have h2 : dblDiv (2 : ℚ) 2 = 1 := by
    rw [dblDiv, show (2 : ℚ)/2 = 1 by norm_num]
    exact roundDbl_intval _ 1 (by norm_num) (by norm_num) (by norm_num)
  have hz : ∀ q : ℚ, dblDiv 0 q = 0 := by
    intro q
    rw [dblDiv, zero_div, roundDbl_zero]
  have hempty : ∀ s : String, normalizeTheme s = "" → jsSplitWs (normalizeTheme s) = [""] := by
    intro s h
    rw [h]
    simp [jsSplitWs]
  have hne : ∀ s : String, normalizeTheme s ≠ "" →
      "" ∉ jsSplitWs (normalizeTheme s) := by
    intro s h hmem
    unfold jsSplitWs at hmem
    rw [if_neg (by
      intro hd
      apply h
      have : normalizeTheme s = String.mk [] := by
        cases hs : normalizeTheme s with
        | mk d => rw [hs] at hd; simp at hd; rw [hd]
      simpa using this)] at hmem
    simp only [List.mem_map] at hmem
    obtain ⟨cs, hcs, hmk⟩ := hmem
    have := wsSplitGo_ne_nil (normalizeTheme s).data [] cs hcs
    apply this
    have hd : cs = ("" : String).data := by rw [← hmk]
    exact hd.trans rfl
  refine ⟨?_, ?_, ?_⟩
  · intro h1 h2'
    simp only [areSimilarThemes, hempty t1 h1, hempty t2 h2']
    norm_num [h2, roundDbl_seven_tenths]
  · intro h1 h2'
    simp only [areSimilarThemes, hempty t1 h1]
    by_cases hlen : (jsSplitWs (normalizeTheme t2)).length = 0
    · simp [hlen]
    · have hnomem := hne t2 h2'
      have hfilter : ([""] : List String).filter
          (fun w => (jsSplitWs (normalizeTheme t2)).contains w) = [] := by
        simp only [List.filter_eq_nil_iff]
        intro a ha
        simp only [List.mem_singleton] at ha
        subst ha
        exact fun hc => hnomem (by simpa using hc)
      simp only [hfilter, hlen, if_false]
      rw [if_neg (by simp [hlen])]
      simp only [List.length_nil, Nat.cast_zero, mul_zero, hz]
      split
      · norm_num [roundDbl_seven_tenths, hz]
      · norm_num [roundDbl_half, hz]
  · intro h1 h2'
    simp only [areSimilarThemes, hempty t2 h2']
    by_cases hlen : (jsSplitWs (normalizeTheme t1)).length = 0
    · simp [hlen]
    · have hnomem := hne t1 h1
      have hfilter : (jsSplitWs (normalizeTheme t1)).filter
          (fun w => ([""] : List String).contains w) = [] := by
        simp only [List.filter_eq_nil_iff]
        intro a ha hc
        have hmem : a ∈ ([""] : List String) := by simpa using hc
        simp only [List.mem_singleton] at hmem
        subst hmem
        exact hnomem ha
      simp only [hfilter]
      rw [if_neg (by simp [hlen])]
      simp only [List.length_nil, Nat.cast_zero, mul_zero, hz]
      split
      · norm_num [roundDbl_seven_tenths, hz]
      · norm_num [roundDbl_half, hz]

/-- C5 (witness). -/
theorem c5_empty_label_similarity_witness :
    areSimilarThemes "" "" = true ∧ areSimilarThemes "" "a" = false :=
  ⟨(c5_empty_label_similarity "" "").1 rfl rfl,
    (c5_empty_label_similarity "" "a").2.1 rfl (by decide)⟩

/-! ## Claim C4: FORCE_SPLIT policy of `splitAndProcessChunk` -/

/-- If no sub-chunk fails with an error other than `FORCE_SPLIT`, the
loop completes and returns exactly the concatenation of the successful
sub-chunks' results (failed ones are skipped). -/
theorem processSubChunks_ok (f : String → Except ExtractError (List ThemeEntry)) :
    ∀ cs : List String,
      (∀ c ∈ cs, ∀ m, f c ≠ Except.error (ExtractError.otherErr m)) →
      processSubChunks f cs =
        Except.ok ((cs.filterMap fun c => (f c).toOption).flatten) := by
  intro cs
  induction cs with
  | nil => intro _; simp [processSubChunks]
  | cons c cs ih =>
    intro h
    have hc := h c (List.mem_cons_self c cs)
    have hrest := ih fun p hp m => h p (List.mem_cons_of_mem c hp) m
    unfold processSubChunks
    cases hfc : f c with
    | ok themes =>
      rw [hrest]
      simp [List.filterMap_cons, hfc, Except.toOption]
    | error e =>
      cases e with
      | forceSplit =>
        rw [hrest]
        simp [List.filterMap_cons, hfc, Except.toOption]
      | otherErr m => exact absurd hfc (hc m)

/-- The first sub-chunk failing with a non-`FORCE_SPLIT` error aborts the
whole loop with that error. -/
theorem processSubChunks_fatal (f : String → Except ExtractError (List ThemeEntry)) :
    ∀ (pre : List String) (c : String) (post : List String) (m : String),
      (∀ p ∈ pre, ∀ m', f p ≠ Except.error (ExtractError.otherErr m')) →
      f c = Except.error (ExtractError.otherErr m) →
      processSubChunks f (pre ++ c :: post) =
        Except.error (ExtractError.otherErr m) := by
  intro pre
  induction pre with
  | nil =>
    intro c post m _ hc
    simp only [List.nil_append]
    unfold processSubChunks
    rw [hc]
  | cons p pre ih =>
    intro c post m h hc
    have hp := h p (List.mem_cons_self p pre)
    have hrest := ih c post m (fun p' hp' m' => h p' (List.mem_cons_of_mem p hp') m') hc
    simp only [List.cons_append]
    unfold processSubChunks
    cases hfp : f p with
    | ok themes => rw [hrest]
    | error e =>
      cases e with
      | forceSplit => exact hrest
      | otherErr m' => exact absurd hfp (hp m')

/-- C4.  Error policy of `splitAndProcessChunk`: (a) when every
sub-chunk either succeeds or fails with the capacity-exceeded signal
`FORCE_SPLIT`, the call completes with exactly the results of the
successful sub-chunks, skipping the failed ones — a `FORCE_SPLIT` at
this maximum recursion depth never propagates; (b) a sub-chunk failing
with any other error aborts the whole call with that error (re-thrown),
provided no earlier sub-chunk was already fatal. -/
theorem c4_force_split_policy :
    (∀ (f : String → Except ExtractError (List ThemeEntry)) (chunk : String),
      (∀ c ∈ buildSubChunks chunk, ∀ m,
        f c ≠ Except.error (ExtractError.otherErr m)) →
      splitAndProcessChunk f chunk =
        Except.ok (((buildSubChunks chunk).filterMap fun c => (f c).toOption).flatten)) ∧
    (∀ (f : String → Except ExtractError (List ThemeEntry)) (chunk : String)
      (pre : List String) (c : String) (post : List String) (m : String),
      buildSubChunks chunk = pre ++ c :: post →
      (∀ p ∈ pre, ∀ m', f p ≠ Except.error (ExtractError.otherErr m')) →
      f c = Except.error (ExtractError.otherErr m) →
      splitAndProcessChunk f chunk = Except.error (ExtractError.otherErr m)) := by
  constructor
  · intro f chunk h
    exact processSubChunks_ok f (buildSubChunks chunk) h
  · intro f chunk pre c post m hsplit hpre hc
    unfold splitAndProcessChunk
    rw [hsplit]
    exact processSubChunks_fatal f pre c post m hpre hc

/-- Evaluation helper: the sub-chunks of the one-cue chunk used by the
C4 witness. -/
theorem buildSubChunks_example :
    buildSubChunks "1\n00:00:00,000 --> 00:00:01,000\nhi" =
      ["1\n00:00:00 --> 00:00:01\nhi\n"] := by
  have hp : parseSrt "1\n00:00:00,000 --> 00:00:01,000\nhi" =
      [⟨1, "00:00:00", "00:00:01", "hi"⟩] := by rfl
  simp only [buildSubChunks, hp, List.length_singleton]
  rw [chunksOf.eq_def]
  simp only [subChunkSize]
  rw [chunksOf.eq_def]
  rfl

/-- C4 (witness).  On a concrete one-cue chunk: an extractor that always
reports `FORCE_SPLIT` makes the call complete with `ok []`; an extractor
that throws any other error aborts the call with that error. -/
theorem c4_force_split_policy_witness :
    splitAndProcessChunk (fun _ => Except.error ExtractError.forceSplit)
      "1\n00:00:00,000 --> 00:00:01,000\nhi" = Except.ok [] ∧
    splitAndProcessChunk (fun _ => Except.error (ExtractError.otherErr "boom"))
      "1\n00:00:00,000 --> 00:00:01,000\nhi" =
        Except.error (ExtractError.otherErr "boom") := by
  constructor
  · have h := c4_force_split_policy.1
      (fun _ => Except.error ExtractError.forceSplit)
      "1\n00:00:00,000 --> 00:00:01,000\nhi"
      (by intro c _ m; simp)
    rw [buildSubChunks_example] at h
    simpa [Except.toOption] using h
  · exact c4_force_split_policy.2
      (fun _ => Except.error (ExtractError.otherErr "boom"))
      "1\n00:00:00,000 --> 00:00:01,000\nhi"
      [] "1\n00:00:00 --> 00:00:01\nhi\n" [] "boom"
      (by rw [buildSubChunks_example]; rfl)
      (by intro p hp m'; simp at hp)
      rfl

/-! ## Claim C9: `parseSrt` discards milliseconds -/

/-- A string is exactly an `HH:MM:SS` text: 8 characters, digits with
colons at positions 2 and 5 — in particular it contains no millisecond
field. -/
def isHMSShape (s : String) : Bool :=
  match s.data with
  | [a, b, c, d, e, f, g, h] =>
    isDig a && isDig b && c = ':' && isDig d && isDig e && f = ':' &&
      isDig g && isDig h
  | _ => false

theorem stampShape_isHMS {t : Stamp} (h : stampShape t) :
    isHMSShape ⟨stampHMS t⟩ = true := by
  obtain ⟨h1, h2, h3, h4, h5, h6, -, -, -⟩ := h
  simp [isHMSShape, stampHMS, h1, h2, h3, h4, h5, h6]

theorem searchStampPair_shape :
    ∀ {l : List Char} {t1 t2 : Stamp}, searchStampPair l = some (t1, t2) →
      stampShape t1 ∧ stampShape t2 := by
  intro l
  induction l with
  | nil => intro t1 t2 h; simp [searchStampPair] at h
  | cons c cs ih =>
    intro t1 t2 h
    unfold searchStampPair at h
    split at h
    · rename_i u1 u2 rest hm
      simp only [Option.some.injEq, Prod.mk.injEq] at h
      obtain ⟨e1, e2⟩ := h
      subst e1 e2
      obtain ⟨-, hs1, hs2⟩ := matchStampPair_eq hm
      exact ⟨hs1, hs2⟩
    · exact ih h

theorem scanStep_ne_inText (l : List Char) (id : ℤ) (t1 t2 : Stamp)
    (acc : List Char) : scanStep l ≠ ParseState.inText id t1 t2 acc := by
  unfold scanStep
  split
  · simp
  · split <;> simp

theorem parseLoop_shape :
    ∀ (ls : List (List Char)) (st : ParseState),
      (∀ id t1 t2 acc, st = ParseState.inText id t1 t2 acc →
        stampShape t1 ∧ stampShape t2) →
      ∀ r ∈ parseLoop st ls,
        isHMSShape r.start = true ∧ isHMSShape r.stop = true := by
  intro ls
  induction ls with
  | nil =>
    intro st hst r hr
    cases st with
    | inText id t1 t2 acc =>
      simp only [parseLoop, List.mem_singleton] at hr
      subst hr
      obtain ⟨hs1, hs2⟩ := hst id t1 t2 acc rfl
      exact ⟨stampShape_isHMS hs1, stampShape_isHMS hs2⟩
    | scan => simp [parseLoop] at hr
    | afterId id => simp [parseLoop] at hr
  | cons l ls ih =>
    intro st hst r hr
    cases st with
    | scan =>
      rw [parseLoop] at hr
      exact ih (scanStep l)
        (fun id t1 t2 acc h => absurd h (scanStep_ne_inText l id t1 t2 acc))
        r hr
    | afterId id =>
      rw [parseLoop] at hr
      split at hr
      · exact ih ParseState.scan (by intro _ _ _ _ h; cases h) r hr
      · rename_i t1 t2 hs
        exact ih (ParseState.inText id t1 t2 [])
          (fun id' t1' t2' acc' h => by
            cases h
            exact searchStampPair_shape hs)
          r hr
    | inText id t1 t2 acc =>
      rw [parseLoop] at hr
      split at hr
      · exact ih (ParseState.inText id t1 t2 (acc ++ l ++ ['\n']))
          (fun id' t1' t2' acc' h => by
            cases h
            exact hst id t1 t2 acc rfl)
          r hr
      · rcases List.mem_cons.mp hr with h | h
        · subst h
          obtain ⟨hs1, hs2⟩ := hst id t1 t2 acc rfl
          exact ⟨stampShape_isHMS hs1, stampShape_isHMS hs2⟩
        · exact ih (scanStep l)
            (fun id' t1' t2' acc' h =>
              absurd h (scanStep_ne_inText l id' t1' t2' acc'))
            r h

/-- C9.  Every record returned by `parseSrt` carries `start` and `end`
strings of the exact shape `HH:MM:SS`: the millisecond fields of both
endpoints are discarded at the parsing interface, so sub-second timing
never survives a parse. -/
theorem c9_parse_drops_milliseconds (srtContent : String) (r : Subtitle)
    (hr : r ∈ parseSrt srtContent) :
    isHMSShape r.start = true ∧ isHMSShape r.stop = true :=
  parseLoop_shape (splitNl srtContent.data) ParseState.scan
    (fun _ _ _ _ h => by cases h) r hr

/-- C9 (witness). -/
theorem c9_parse_drops_milliseconds_witness :
    isHMSShape (Subtitle.start ⟨1, "00:00:00", "00:00:01", "hi"⟩) = true ∧
    isHMSShape (Subtitle.stop ⟨1, "00:00:00", "00:00:01", "hi"⟩) = true :=
  c9_parse_drops_milliseconds "1\n00:00:00,000 --> 00:00:01,000\nhi"
    ⟨1, "00:00:00", "00:00:01", "hi"⟩
    (by rw [show parseSrt "1\n00:00:00,000 --> 00:00:01,000\nhi" =
        [⟨1, "00:00:00", "00:00:01", "hi"⟩] from rfl]
        exact List.mem_singleton_self _)

/-! ## Claims C1 and C2: formatting and the parse/format round trip -/

theorem digitChar_isDig : ∀ m : ℕ, m < 10 → isDig (Nat.digitChar m) = true := by
  decide

theorem toDigitsCore_chars :
    ∀ (fuel n : ℕ) (acc : List Char), (∀ c ∈ acc, isDig c = true) →
      ∀ c ∈ Nat.toDigitsCore 10 fuel n acc, isDig c = true := by
  intro fuel
  induction fuel with
  | zero => intro n acc hacc c hc; exact hacc c hc
  | succ f ih =>
    intro n acc hacc c hc
    rw [Nat.toDigitsCore] at hc
    have hd : isDig (Nat.digitChar (n % 10)) = true :=
      digitChar_isDig (n % 10) (Nat.mod_lt n (by norm_num))
    have hacc' : ∀ c ∈ Nat.digitChar (n % 10) :: acc, isDig c = true := by
      intro c' hc'
      rcases List.mem_cons.mp hc' with h | h
      · subst h; exact hd
      · exact hacc c' h
    split at hc
    · exact hacc' c hc
    · exact ih (n / 10) (Nat.digitChar (n % 10) :: acc) hacc' c hc

theorem nat_repr_chars (n : ℕ) : ∀ c ∈ (Nat.repr n).data, isDig c = true := by
  intro c hc
  have : (Nat.repr n).data = Nat.toDigitsCore 10 (n + 1) n [] := rfl
  rw [this] at hc
  exact toDigitsCore_chars (n + 1) n [] (by simp) c hc

theorem int_repr_chars (z : ℤ) :
    ∀ c ∈ (Int.repr z).data, isDig c = true ∨ c = '-' := by
  intro c hc
  cases z with
  | ofNat m => exact Or.inl (nat_repr_chars m c hc)
  | negSucc m =>
    have : (Int.repr (Int.negSucc m)).data = '-' :: (Nat.repr (m + 1)).data := rfl
    rw [this] at hc
    rcases List.mem_cons.mp hc with h | h
    · exact Or.inr h
    · exact Or.inl (nat_repr_chars (m + 1) c h)

theorem isDig_not_special {c : Char} (h : isDig c = true) :
    c ≠ ',' ∧ c ≠ '\n' := by
  constructor <;> intro h' <;> subst h' <;> exact absurd h (by decide)

theorem int_repr_no_comma_nl (z : ℤ) :
    ',' ∉ (Int.repr z).data ∧ '\n' ∉ (Int.repr z).data := by
  constructor <;> intro hmem <;> rcases int_repr_chars z _ hmem with h | h
  · exact (isDig_not_special h).1 rfl
  · exact absurd h (by decide)
  · exact (isDig_not_special h).2 rfl
  · exact absurd h (by decide)

theorem isHMSShape_chars {s : String} (h : isHMSShape s = true) :
    ∀ c ∈ s.data, isDig c = true ∨ c = ':' := by
  unfold isHMSShape at h
  split at h
  · rename_i a b c' d e f g h' heq
    rw [heq]
    simp only [Bool.and_eq_true, decide_eq_true_eq] at h
    obtain ⟨⟨⟨⟨⟨⟨⟨ha, hb⟩, hc⟩, hd⟩, he⟩, hf⟩, hg⟩, hh⟩ := h
    subst hc hf
    intro c hc
    simp only [List.mem_cons, List.not_mem_nil, or_false] at hc
    rcases hc with h | h | h | h | h | h | h | h <;> subst h
    · exact Or.inl ha
    · exact Or.inl hb
    · exact Or.inr rfl
    · exact Or.inl hd
    · exact Or.inl he
    · exact Or.inr rfl
    · exact Or.inl hg
    · exact Or.inl hh
  · exact absurd h (by decide)

theorem isHMSShape_no_comma_nl {s : String} (h : isHMSShape s = true) :
    ',' ∉ s.data ∧ '\n' ∉ s.data := by
  constructor <;> intro hmem <;> rcases isHMSShape_chars h _ hmem with h' | h'
  · exact (isDig_not_special h').1 rfl
  · exact absurd h' (by decide)
  · exact (isDig_not_special h').2 rfl
  · exact absurd h' (by decide)

theorem splitNl_ne_nil : ∀ l : List Char, splitNl l ≠ [] := by
  intro l
  cases l with
  | nil => simp [splitNl]
  | cons c cs =>
    unfold splitNl
    split
    · simp
    · split <;> simp

theorem splitNl_cons_nl (cs : List Char) :
    splitNl ('\n' :: cs) = [] :: splitNl cs := by
  rw [splitNl, if_pos rfl]

theorem splitNl_cons_other {c : Char} (h : ¬ c = '\n') (cs : List Char) :
    splitNl (c :: cs) =
      match splitNl cs with
      | [] => [[c]]
      | t :: ts => (c :: t) :: ts := by
  rw [splitNl, if_neg h]

theorem splitNl_append : ∀ xs ys : List Char,
    splitNl (xs ++ '\n' :: ys) = splitNl xs ++ splitNl ys := by
  intro xs
  induction xs with
  | nil => intro ys; rw [List.nil_append, splitNl_cons_nl]; rfl
  | cons c cs ih =>
    intro ys
    by_cases hc : c = '\n'
    · subst hc
      rw [List.cons_append, splitNl_cons_nl, splitNl_cons_nl, ih]
      rfl
    · rw [List.cons_append, splitNl_cons_other hc, splitNl_cons_other hc, ih]
      cases hcs : splitNl cs with
      | nil => exact absurd hcs (splitNl_ne_nil cs)
      | cons t ts => simp

theorem splitNl_no_nl : ∀ xs : List Char, '\n' ∉ xs → splitNl xs = [xs] := by
  intro xs
  induction xs with
  | nil => intro _; rfl
  | cons c cs ih =>
    intro h
    have hc : c ≠ '\n' := fun h' => h (h' ▸ List.mem_cons_self c cs)
    have hcs : '\n' ∉ cs := fun h' => h (List.mem_cons_of_mem c h')
    unfold splitNl
    rw [if_neg hc, ih hcs]

theorem splitNl_joinNl : ∀ bs : List (List Char), bs ≠ [] →
    splitNl (joinNl bs) = bs.flatMap splitNl := by
  intro bs
  induction bs with
  | nil => intro h; exact absurd rfl h
  | cons b bs ih =>
    intro _
    cases bs with
    | nil => simp [joinNl]
    | cons b' bs' =>
      rw [show joinNl (b :: b' :: bs') = b ++ '\n' :: joinNl (b' :: bs') from rfl,
        splitNl_append, List.flatMap_cons, ih (by simp)]

/-- The lines of the block `formatSubtitlesToSrt` emits for one record:
first the record's own `id` (not a sequential index), then the timestamp
line, then the text's lines, then the blank separator line. -/
def blockLines (s : Subtitle) : List (List Char) :=
  (Int.repr s.id).data :: (s.start.data ++ arrowChars ++ s.stop.data) ::
    (splitNl s.text.data ++ [[]])

theorem splitNl_cueBlock (s : Subtitle) (h1 : '\n' ∉ s.start.data)
    (h2 : '\n' ∉ s.stop.data) : splitNl (cueBlock s) = blockLines s := by
  have hid : '\n' ∉ (Int.repr s.id).data := (int_repr_no_comma_nl s.id).2
  have hts : '\n' ∉ s.start.data ++ arrowChars ++ s.stop.data := by
    intro hmem
    rcases List.mem_append.mp hmem with h | h
    · rcases List.mem_append.mp h with h | h
      · exact h1 h
      · exact absurd h (by decide)
    · exact h2 h
  have e1 : cueBlock s = (Int.repr s.id).data ++ '\n' ::
      ((s.start.data ++ arrowChars ++ s.stop.data) ++ '\n' ::
        (s.text.data ++ '\n' :: [])) := by
    simp [cueBlock]
  rw [e1, splitNl_append, splitNl_append, splitNl_append,
    splitNl_no_nl _ hid, splitNl_no_nl _ hts]
  rfl

/-- The line structure of `formatSubtitlesToSrt`'s output. -/
theorem formatSubtitlesToSrt_lines (subtitles : List Subtitle)
    (hne : subtitles ≠ [])
    (hnl : ∀ r ∈ subtitles, '\n' ∉ r.start.data ∧ '\n' ∉ r.stop.data) :
    splitNl (formatSubtitlesToSrt subtitles).data =
      subtitles.flatMap blockLines := by
  have hdata : (formatSubtitlesToSrt subtitles).data =
      joinNl (subtitles.map cueBlock) := rfl
  rw [hdata, splitNl_joinNl _ (by simpa using hne), List.flatMap_map]
  apply List.flatMap_congr
  intro r hr
  exact splitNl_cueBlock r (hnl r hr).1 (hnl r hr).2

/-- C1 (amended).  `formatSubtitlesToSrt` does *not* renumber: the lines
of its output are exactly, per record in order, the decimal rendering of
that record's own `id` field, the timestamp line, the text lines and a
blank separator.  (Renumbering from 1 happens only in
`combineSrtFiles`.) -/
theorem c1_format_emits_input_ids (subtitles : List Subtitle)
    (hne : subtitles ≠ [])
    (hnl : ∀ r ∈ subtitles, '\n' ∉ r.start.data ∧ '\n' ∉ r.stop.data) :
    splitNl (formatSubtitlesToSrt subtitles).data =
      subtitles.flatMap blockLines :=
  formatSubtitlesToSrt_lines subtitles hne hnl

/-- C1 (counterexample).  A single record with `id = 2` is emitted with
cue index line `"2"`, not `"1"`: output cues are not renumbered starting
at 1. -/
theorem c1_format_renumbers_counterexample :
    (splitNl (formatSubtitlesToSrt
      [⟨2, "00:00:00", "00:00:01", "a"⟩]).data).head? = some ['2'] ∧
    (['2'] : List Char) ≠ ['1'] := by
  constructor
  · rfl
  · decide

/-- C1 (witness). -/
theorem c1_format_emits_input_ids_witness :
    splitNl (formatSubtitlesToSrt
      [⟨2, "00:00:00", "00:00:01", "a"⟩]).data =
      [⟨2, "00:00:00", "00:00:01", "a"⟩].flatMap blockLines :=
  c1_format_emits_input_ids [⟨2, "00:00:00", "00:00:01", "a"⟩]
    (by decide) (by decide)

theorem searchStampPair_none_of_no_comma {l : List Char} (h : ',' ∉ l) :
    searchStampPair l = none := by
  cases hs : searchStampPair l with
  | none => rfl
  | some p => exact absurd (searchStampPair_comma (by rw [hs]; rfl)) h

theorem scanStep_cases (l : List Char) :
    scanStep l = ParseState.scan ∨ ∃ id, scanStep l = ParseState.afterId id := by
  unfold scanStep
  split
  · exact Or.inl rfl
  · split
    · exact Or.inl rfl
    · exact Or.inr ⟨_, rfl⟩

/-- If no line contains a timestamp-pair match, `parseSrt` returns no
records at all (records are only pushed after a successful timestamp
match). -/
theorem parseLoop_no_match :
    ∀ (ls : List (List Char)), (∀ l ∈ ls, searchStampPair l = none) →
      ∀ st : ParseState,
        (st = ParseState.scan ∨ ∃ id, st = ParseState.afterId id) →
        parseLoop st ls = [] := by
  intro ls
  induction ls with
  | nil =>
    intro _ st hst
    rcases hst with h | ⟨id, h⟩ <;> subst h <;> rfl
  | cons l ls ih =>
    intro h st hst
    have hl := h l (List.mem_cons_self l ls)
    have hrest : ∀ l' ∈ ls, searchStampPair l' = none :=
      fun l' hl' => h l' (List.mem_cons_of_mem l hl')
    rcases hst with hscan | ⟨id, hid⟩
    · subst hscan
      rw [parseLoop]
      exact ih hrest (scanStep l) (scanStep_cases l)
    · subst hid
      rw [parseLoop]
      split
      · exact ih hrest ParseState.scan (Or.inl rfl)
      · rename_i t1 t2 hsome
        rw [hl] at hsome
        cases hsome

/-- C2 (amended).  The parse/format round trip does not preserve the
`(start, end, text)` triples: it loses *every* cue.  `parseSrt` keeps
only the `HH:MM:SS` part of each timestamp, while its pattern demands a
`,mmm` millisecond field, so no timestamp line of
`formatSubtitlesToSrt (parseSrt t)` can match again.  Whenever no text
line of the parsed cues happens to contain its own timestamp-pair text,
re-parsing the formatted output yields the empty record list. -/
theorem c2_roundtrip_loses_cues (t : String)
    (htext : ∀ r ∈ parseSrt t, ∀ ln ∈ splitNl r.text.data,
      searchStampPair ln = none) :
    parseSrt (formatSubtitlesToSrt (parseSrt t)) = [] := by
  by_cases hnil : parseSrt t = []
  · rw [hnil]
    rfl
  · have hshape : ∀ r ∈ parseSrt t,
        isHMSShape r.start = true ∧ isHMSShape r.stop = true :=
      fun r hr => parseLoop_shape (splitNl t.data) ParseState.scan
        (fun _ _ _ _ h => by cases h) r hr
    have hnl : ∀ r ∈ parseSrt t, '\n' ∉ r.start.data ∧ '\n' ∉ r.stop.data :=
      fun r hr => ⟨(isHMSShape_no_comma_nl (hshape r hr).1).2,
        (isHMSShape_no_comma_nl (hshape r hr).2).2⟩
    have hlines := formatSubtitlesToSrt_lines (parseSrt t) hnil hnl
    rw [show parseSrt (formatSubtitlesToSrt (parseSrt t)) =
      parseLoop ParseState.scan
        (splitNl (formatSubtitlesToSrt (parseSrt t)).data) from rfl, hlines]
    apply parseLoop_no_match _ _ ParseState.scan (Or.inl rfl)
    intro l hl
    rw [List.mem_flatMap] at hl
    obtain ⟨r, hr, hlr⟩ := hl
    unfold blockLines at hlr
    rcases List.mem_cons.mp hlr with h | hlr
    · subst h
      exact searchStampPair_none_of_no_comma (int_repr_no_comma_nl r.id).1
    rcases List.mem_cons.mp hlr with h | hlr
    · subst h
      apply searchStampPair_none_of_no_comma
      intro hmem
      rcases List.mem_append.mp hmem with h | h
      · rcases List.mem_append.mp h with h | h
        · exact (isHMSShape_no_comma_nl (hshape r hr).1).1 h
        · exact absurd h (by decide)
      · exact (isHMSShape_no_comma_nl (hshape r hr).2).1 h
    rcases List.mem_append.mp hlr with h | h
    · exact htext r hr l h
    · simp only [List.mem_singleton] at h
      subst h
      rfl

/-- C2 (counterexample).  For the well-formed cue block
`"1\n00:00:01,000 --> 00:00:02,000\nhello"`, parsing yields one cue but
parsing the formatted output yields none: the multisets of
`(start, end, text)` triples differ. -/
theorem c2_roundtrip_counterexample :
    (↑((parseSrt (formatSubtitlesToSrt
        (parseSrt "1\n00:00:01,000 --> 00:00:02,000\nhello"))).map
      (fun r => (r.start, r.stop, r.text))) : Multiset (String × String × String)) ≠
    ↑((parseSrt "1\n00:00:01,000 --> 00:00:02,000\nhello").map
      (fun r => (r.start, r.stop, r.text))) := by
  rw [show parseSrt "1\n00:00:01,000 --> 00:00:02,000\nhello" =
    [⟨1, "00:00:01", "00:00:02", "hello"⟩] from rfl]
  rw [show parseSrt (formatSubtitlesToSrt
    [(⟨1, "00:00:01", "00:00:02", "hello"⟩ : Subtitle)]) = [] from rfl]
  simp

/-- C2 (witness). -/
theorem c2_roundtrip_loses_cues_witness :
    parseSrt (formatSubtitlesToSrt
      (parseSrt "1\n00:00:01,000 --> 00:00:02,000\nhello")) = [] :=
  c2_roundtrip_loses_cues "1\n00:00:01,000 --> 00:00:02,000\nhello"
    (by decide)

/-! ## Claim C10: `mergeOverlappingThemes` sorts its argument in place -/

/-- C10.  The source's `themes.sort(...)` mutates the caller's array:
after the call the argument array holds a permutation of the input,
ascending by `timeToSeconds(start)` (the comparator's order), while the
returned merged list is built separately. -/
theorem c10_merge_sorts_argument (themes : List ThemeEntry) :
    ((mergeOverlappingThemesRun themes).1).Perm themes ∧
    List.Sorted themeLE (mergeOverlappingThemesRun themes).1 := by
  constructor
  · exact List.perm_insertionSort themeLE themes
  · exact List.sorted_insertionSort themeLE themes

/-! ## Claim C6: idempotence of `mergeOverlappingThemes` -/

theorem extendTheme_start (c t : ThemeEntry) :
    (extendTheme c t).start = c.start := by
  unfold extendTheme
  split <;> rfl

theorem extendTheme_label (c t : ThemeEntry) :
    (extendTheme c t).theme = c.theme := by
  unfold extendTheme
  split <;> rfl

theorem themeKey_extendTheme (c t : ThemeEntry) :
    themeKey (extendTheme c t) = themeKey c := by
  unfold themeKey
  rw [extendTheme_start]

/-- The condition `shouldMerge c ·` looks only at the incoming span's `start` and
`theme`; its (possibly extended) `end` is irrelevant. -/
theorem shouldMerge_congr_right (c t d : ThemeEntry)
    (hs : d.start = t.start) (hl : d.theme = t.theme) :
    shouldMerge c d = shouldMerge c t := by
  unfold shouldMerge
  rw [hs, hl]

/-- The head of a `mergeScan` run keeps the running span's `start` and
`theme` (only `end` may have been extended). -/
theorem mergeScan_head :
    ∀ (l : List ThemeEntry) (c : ThemeEntry),
      ∃ d rest, mergeScan (some c) l = d :: rest ∧
        d.start = c.start ∧ d.theme = c.theme := by
  intro l
  induction l with
  | nil => intro c; exact ⟨c, [], rfl, rfl, rfl⟩
  | cons t ts ih =>
    intro c
    rw [mergeScan]
    split
    · obtain ⟨d, rest, hout, hs, hl⟩ := ih (extendTheme c t)
      exact ⟨d, rest, hout, hs.trans (extendTheme_start c t),
        hl.trans (extendTheme_label c t)⟩
    · exact ⟨c, mergeScan (some t) ts, rfl, rfl, rfl⟩

/-- Consecutive spans of a `mergeScan` output never satisfy the merge
condition: each adjacent pair was rejected during the scan, with exactly
the fields the condition reads. -/
theorem mergeScan_chain :
    ∀ (l : List ThemeEntry) (c : ThemeEntry),
      List.Chain' (fun x y => shouldMerge x y = false) (mergeScan (some c) l) := by
  intro l
  induction l with
  | nil => intro c; simp [mergeScan]
  | cons t ts ih =>
    intro c
    rw [mergeScan]
    split
    · exact ih (extendTheme c t)
    · rename_i hsm
      rw [List.chain'_cons']
      constructor
      · intro d hd
        obtain ⟨d', rest, hout, hs, hl⟩ := mergeScan_head ts t
        rw [hout] at hd
        simp only [List.head?_cons, Option.mem_def, Option.some.injEq] at hd
        subst hd
        rw [shouldMerge_congr_right c t d' hs hl]
        simpa using hsm
      · exact ih t

theorem mergeScan_key_le :
    ∀ (l : List ThemeEntry) (c : ThemeEntry), List.Sorted themeLE l →
      (∀ x ∈ l, themeLE c x) →
      ∀ y ∈ mergeScan (some c) l, themeLE c y := by
  intro l
  induction l with
  | nil =>
    intro c _ _ y hy
    simp only [mergeScan, List.mem_singleton] at hy
    subst hy
    exact le_refl _
  | cons t ts ih =>
    intro c hsort hle y hy
    rw [mergeScan] at hy
    split at hy
    · have hkey := themeKey_extendTheme c t
      have hy' := ih (extendTheme c t) (List.Sorted.of_cons hsort)
        (fun x hx => by
          unfold themeLE
          rw [hkey]
          exact hle x (List.mem_cons_of_mem t hx)) y hy
      unfold themeLE at hy' ⊢
      rw [hkey] at hy'
      exact hy'
    · rcases List.mem_cons.mp hy with h | h
      · subst h
        exact le_refl _
      · have hty := ih t (List.Sorted.of_cons hsort)
          (List.rel_of_sorted_cons hsort) y h
        exact le_trans (hle t (List.mem_cons_self t ts)) hty

theorem mergeScan_sorted :
    ∀ (l : List ThemeEntry) (c : ThemeEntry), List.Sorted themeLE l →
      (∀ x ∈ l, themeLE c x) →
      List.Sorted themeLE (mergeScan (some c) l) := by
  intro l
  induction l with
  | nil => intro c _ _; simp [mergeScan]
  | cons t ts ih =>
    intro c hsort hle
    rw [mergeScan]
    split
    · exact ih (extendTheme c t) (List.Sorted.of_cons hsort)
        (fun x hx => by
          unfold themeLE
          rw [themeKey_extendTheme]
          exact hle x (List.mem_cons_of_mem t hx))
    · rw [List.sorted_cons]
      constructor
      · intro y hy
        have hty := mergeScan_key_le ts t (List.Sorted.of_cons hsort)
          (List.rel_of_sorted_cons hsort) y hy
        exact le_trans (hle t (List.mem_cons_self t ts)) hty
      · exact ih t (List.Sorted.of_cons hsort) (List.rel_of_sorted_cons hsort)

/-- A scan over a list whose adjacent pairs all fail the merge condition
changes nothing. -/
theorem mergeScan_of_chain :
    ∀ (l : List ThemeEntry) (c : ThemeEntry),
      List.Chain' (fun x y => shouldMerge x y = false) (c :: l) →
      mergeScan (some c) l = c :: l := by
  intro l
  induction l with
  | nil => intro c _; rfl
  | cons t ts ih =>
    intro c hchain
    have hct : shouldMerge c t = false :=
      (List.chain'_cons.mp hchain).1
    rw [mergeScan, if_neg (by simp [hct]), ih t (List.chain'_cons.mp hchain).2]

/-- C6.  `mergeOverlappingThemes` is idempotent: merging an
already-merged list changes nothing.  The pass-2 sort is the identity
(the output is already ascending by start key, and the model sort is
stable), and every adjacent pair of the output was already rejected by
the merge condition with exactly the values pass 2 recomputes. -/
theorem c6_merge_idempotent (themes : List ThemeEntry) :
    mergeOverlappingThemes (mergeOverlappingThemes themes) =
      mergeOverlappingThemes themes := by
  unfold mergeOverlappingThemes mergeOverlappingThemesRun
  simp only
  cases hl : sortThemes themes with
  | nil => rfl
  | cons c cs =>
    have hsort : List.Sorted themeLE (c :: cs) := by
      rw [← hl]
      exact List.sorted_insertionSort themeLE themes
    have hout : mergeScan none (c :: cs) = mergeScan (some c) cs := rfl
    have hsorted_out : List.Sorted themeLE (mergeScan (some c) cs) :=
      mergeScan_sorted cs c (List.Sorted.of_cons hsort)
        (List.rel_of_sorted_cons hsort)
    have hsort_eq : sortThemes (mergeScan (some c) cs) = mergeScan (some c) cs :=
      List.Sorted.insertionSort_eq hsorted_out
    rw [hout, hsort_eq]
    obtain ⟨d, rest, hdrest, -, -⟩ := mergeScan_head cs c
    have hchain := mergeScan_chain cs c
    rw [hdrest] at hchain ⊢
    exact mergeScan_of_chain rest d hchain

/-! ## Claim C7: offset 0 is *not* the identity (a floating-point bug) -/

/-- The seconds value the code computes for the matched timestamp
`00:00:01,001`: the double nearest `1.001`, which lies just *below* it. -/
theorem stampSeconds_one_001 :
    stampSeconds ⟨'0','0','0','0','0','1','0','0','1'⟩ =
      2254051613498933/2251799813685248 := by
  have hH : ((stampH ⟨'0','0','0','0','0','1','0','0','1'⟩ : ℕ) : ℚ) = 0 := by
    rw [show stampH ⟨'0','0','0','0','0','1','0','0','1'⟩ = 0 from rfl]
    norm_num
  have hM : ((stampM ⟨'0','0','0','0','0','1','0','0','1'⟩ : ℕ) : ℚ) = 0 := by
    rw [show stampM ⟨'0','0','0','0','0','1','0','0','1'⟩ = 0 from rfl]
    norm_num
  have hS : ((stampS ⟨'0','0','0','0','0','1','0','0','1'⟩ : ℕ) : ℚ) = 1 := by
    rw [show stampS ⟨'0','0','0','0','0','1','0','0','1'⟩ = 1 from rfl]
    norm_num
  have hMs : ((stampMs ⟨'0','0','0','0','0','1','0','0','1'⟩ : ℕ) : ℚ) = 1 := by
    rw [show stampMs ⟨'0','0','0','0','0','1','0','0','1'⟩ = 1 from rfl]
    norm_num
  have hm3600 : dblMul (0 : ℚ) 3600 = 0 := by
    rw [dblMul, zero_mul, roundDbl_zero]
  have hm60 : dblMul (0 : ℚ) 60 = 0 := by
    rw [dblMul, zero_mul, roundDbl_zero]
  have ha00 : dblAdd (0 : ℚ) 0 = 0 := by
    rw [dblAdd, add_zero, roundDbl_zero]
  have ha01 : dblAdd (0 : ℚ) 1 = 1 := by
    rw [dblAdd, zero_add]
    exact roundDbl_intval _ 1 (by norm_num) (by norm_num) (by norm_num)
  have hdiv : dblDiv (1 : ℚ) 1000 = 1152921504606847/1152921504606846976 := by
    rw [dblDiv, show (1 : ℚ)/1000 = 1/1000 by norm_num,
      roundDbl_eval (1/1000) (-10) (by norm_num) (by norm_num) (by norm_num)]
    norm_num [roundAt]
  have hsum : dblAdd (1 : ℚ) (1152921504606847/1152921504606846976) =
      2254051613498933/2251799813685248 := by
    rw [dblAdd, show (1 : ℚ) + 1152921504606847/1152921504606846976 =
      1154074426111453823/1152921504606846976 by norm_num,
      roundDbl_eval _ 0 (by norm_num) (by norm_num) (by norm_num)]
    norm_num [roundAt]
  unfold stampSeconds
  rw [hH, hM, hS, hMs, hm3600, hm60, ha00, ha01, hdiv, hsum]

/-- Re-encoding the double nearest `1.001` floors the millisecond field
down to `000`: the value the code renders for `00:00:01,001` at offset
`0`. -/
theorem formatTimestamp_one_001 :
    formatTimestampChars (2254051613498933/2251799813685248 : ℚ) =
      ("00:00:01,000" : String).data := by
  have hh : (⌊dblDiv (2254051613498933/2251799813685248 : ℚ) 3600⌋ : ℤ) = 0 := by
    rw [dblDiv, roundDbl_eval _ (-12) (by norm_num) (by norm_num) (by norm_num)]
    norm_num [roundAt]
  have hmod3600 : dblMod (2254051613498933/2251799813685248 : ℚ) 3600 =
      2254051613498933/2251799813685248 := by
    rw [dblMod, show (⌊(2254051613498933/2251799813685248 : ℚ) / 3600⌋ : ℤ) = 0
      by norm_num]
    norm_num
  have hmin : (⌊dblDiv (2254051613498933/2251799813685248 : ℚ) 60⌋ : ℤ) = 0 := by
    rw [dblDiv, roundDbl_eval _ (-6) (by norm_num) (by norm_num) (by norm_num)]
    norm_num [roundAt]
  have hmod60 : dblMod (2254051613498933/2251799813685248 : ℚ) 60 =
      2254051613498933/2251799813685248 := by
    rw [dblMod, show (⌊(2254051613498933/2251799813685248 : ℚ) / 60⌋ : ℤ) = 0
      by norm_num]
    norm_num
  have hmod1 : dblMod (2254051613498933/2251799813685248 : ℚ) 1 =
      2251799813685/2251799813685248 := by
    rw [dblMod, show (⌊(2254051613498933/2251799813685248 : ℚ) / 1⌋ : ℤ) = 1
      by norm_num]
    norm_num
  have hprod : dblMul (2251799813685/2251799813685248 : ℚ) 1000 =
      281474976710625/281474976710656 := by
    rw [dblMul, show (2251799813685/2251799813685248 : ℚ) * 1000 =
      281474976710625/281474976710656 by norm_num]
    exact roundDbl_fix _ 281474976710625 48 (by norm_num) (by norm_num)
      (by norm_num) (by norm_num)
  unfold formatTimestampChars
  rw [hh, hmod3600, hmin, hmod60, hmod1, hprod,
    show (⌊(2254051613498933/2251799813685248 : ℚ)⌋ : ℤ) = 1 by norm_num,
    show (⌊(281474976710625/281474976710656 : ℚ)⌋ : ℤ) = 0 by norm_num]
  rfl

/-- C7 (code bug).  `adjustSrtTimestamps` with offset `0` is *not* the
identity on well-formed timestamp pairs: the double nearest `1.001` is
slightly below it, so `Math.floor((time % 1) * 1000)` yields `0`, and
`00:00:01,001` is rewritten to `00:00:01,000` — one millisecond is lost
even though no offset was applied. -/
theorem c7_offset_zero_not_identity :
    adjustSrtTimestamps "00:00:01,001 --> 00:00:01,001" 0 =
      "00:00:01,000 --> 00:00:01,000" ∧
    ("00:00:01,000 --> 00:00:01,000" : String) ≠
      "00:00:01,001 --> 00:00:01,001" := by
  constructor
  · have hdata : ("00:00:01,001 --> 00:00:01,001" : String).data =
        '0' :: '0' :: ':' :: '0' :: '0' :: ':' :: '0' :: '1' :: ',' :: '0' ::
          '0' :: '1' :: ' ' :: '-' :: '-' :: '>' :: ' ' :: '0' :: '0' :: ':' ::
            '0' :: '0' :: ':' :: '0' :: '1' :: ',' :: '0' :: '0' :: '1' ::
              [] := rfl
    have hmatch : matchStampPair
        ('0' :: '0' :: ':' :: '0' :: '0' :: ':' :: '0' :: '1' :: ',' :: '0' ::
          '0' :: '1' :: ' ' :: '-' :: '-' :: '>' :: ' ' :: '0' :: '0' :: ':' ::
            '0' :: '0' :: ':' :: '0' :: '1' :: ',' :: '0' :: '0' :: '1' ::
              []) =
        some (⟨'0','0','0','0','0','1','0','0','1'⟩,
          ⟨'0','0','0','0','0','1','0','0','1'⟩, []) := rfl
    have ht0 : dblAdd (2254051613498933/2251799813685248 : ℚ) 0 =
        2254051613498933/2251799813685248 := by
      rw [dblAdd, add_zero]
      exact roundDbl_fix _ 2254051613498933 51 (by norm_num) (by norm_num)
        (by norm_num) (by norm_num)
    have hpair : adjustPair 0 ⟨'0','0','0','0','0','1','0','0','1'⟩
        ⟨'0','0','0','0','0','1','0','0','1'⟩ =
        ("00:00:01,000 --> 00:00:01,000" : String).data := by
      unfold adjustPair
      rw [stampSeconds_one_001, ht0, formatTimestamp_one_001]
      rfl
    have hlist : replaceTs (adjustPair 0)
        ("00:00:01,001 --> 00:00:01,001" : String).data =
        ("00:00:01,000 --> 00:00:01,000" : String).data := by
      rw [hdata, replaceTs, hmatch]
      simp [replaceTs, hpair]
    unfold adjustSrtTimestamps
    rw [hlist]
  · decide
